import Mathlib

/-!
Verification of the portfolio analysis engine
(`src/portfolio/analysis/` : `models.py`, `holding_period.py`,
`price_impact.py`, `cross_reference.py`, `performance.py`).

Python floats are embedded as exact rationals (`ℚ`); calendar dates used by
the FIFO ledger are embedded as ordinal day numbers (`ℤ`), so that
`(sell_date - buy_date).days` becomes plain integer subtraction.
-/

namespace Portfolio

/-- `models.py`: `HoldingPeriodCategory` — ordered buckets for holding days. -/
inductive HoldingPeriodCategory where
  | VERY_SHORT_TERM
  | SHORT_TERM
  | MEDIUM_TERM
  | LONG_TERM
  deriving DecidableEq, Repr

namespace HoldingPeriodCategory

/-- `models.py` `HoldingPeriodCategory.from_days`: `days < 30` very short,
`days < 90` short, `days < 365` medium, otherwise long. -/
def from_days (days : ℤ) : HoldingPeriodCategory :=
  if days < 30 then VERY_SHORT_TERM
  else if days < 90 then SHORT_TERM
  else if days < 365 then MEDIUM_TERM
  else LONG_TERM

end HoldingPeriodCategory

/-- `models.py`: `PriceImpactClassification`. -/
inductive PriceImpactClassification where
  | FAVORABLE
  | NEUTRAL
  | UNFAVORABLE
  deriving DecidableEq, Repr

/-- Transaction side.  The analyzers only ever see rows passing the SQL filter
`transaction_type IN ('BUY', 'SELL')`, so the type is embedded as a two-value
inductive rather than a raw string. -/
inductive TxSide where
  | BUY
  | SELL
  deriving DecidableEq, Repr

/-- `models.py`: `Lot` — a single purchase lot for FIFO tracking. -/
structure Lot where
  buy_date : ℤ
  units : ℚ
  price_per_unit : ℚ
  remaining_units : ℚ
  fund_name : String
  platform : String
  tax_wrapper : String
  transaction_id : Option ℤ := none
  deriving DecidableEq, Repr

/-- Float tolerance used throughout `holding_period.py` (0.001 units). -/
def tol : ℚ := 1 / 1000

namespace Lot

/-- `models.py` `Lot.is_exhausted`: `remaining_units <= 0.001`. -/
def is_exhausted (l : Lot) : Bool := l.remaining_units ≤ tol

/-- `models.py` `Lot.consume`: consumed = `min(units_to_sell, remaining_units)`;
returns the consumed amount and the updated lot (the Python method mutates
`remaining_units` in place). -/
def consume (l : Lot) (units_to_sell : ℚ) : ℚ × Lot :=
  let consumed := min units_to_sell l.remaining_units
  (consumed, { l with remaining_units := l.remaining_units - consumed })

end Lot

/-- `models.py`: `HoldingPeriodResult`. -/
structure HoldingPeriodResult where
  fund_name : String
  ticker : Option String
  platform : String
  tax_wrapper : String
  buy_date : ℤ
  sell_date : ℤ
  holding_days : ℤ
  units_sold : ℚ
  buy_price : ℚ
  sell_price : ℚ
  buy_value : ℚ
  sell_value : ℚ
  gain_loss : ℚ
  gain_loss_pct : ℚ
  category : HoldingPeriodCategory
  confidence : ℚ := 1
  deriving DecidableEq, Repr

/-- `holding_period.py`: `FundKey` — grouping key fund/platform/wrapper. -/
structure FundKey where
  fund_name : String
  platform : String
  tax_wrapper : String
  deriving DecidableEq, Repr

/-- A BUY/SELL transaction row as consumed by
`HoldingPeriodAnalyzer._process_fund_transactions` (fields selected by
`_get_transactions_for_analysis`; the `date` column is already parsed to an
ordinal day). -/
structure Tx where
  id : ℤ
  fund_name : String
  platform : String
  tax_wrapper : String
  date : ℤ
  transaction_type : TxSide
  units : ℚ
  price_per_unit : ℚ
  ticker : Option String := none
  deriving DecidableEq, Repr

/-- A data-quality issue appended by `_process_fund_transactions` when a SELL
cannot be fully matched.  The Python code records it as a formatted string
naming exactly these fields; the embedding records the fields themselves. -/
structure Issue where
  fund_name : String
  platform : String
  tax_wrapper : String
  sell_date : ℤ
  unmatched_units : ℚ
  deriving DecidableEq, Repr

/-- The `HoldingPeriodResult` built for one lot consumption inside the SELL
loop of `_process_fund_transactions` (lines 143–166). -/
def mkSellResult (fk : FundKey) (ticker : Option String) (sell_date : ℤ)
    (sell_price : ℚ) (lot : Lot) (consumed : ℚ) : HoldingPeriodResult :=
  let holding_days := sell_date - lot.buy_date
  let buy_value := consumed * lot.price_per_unit
  let sell_value := consumed * sell_price
  let gain_loss := sell_value - buy_value
  { fund_name := fk.fund_name
    ticker := ticker
    platform := fk.platform
    tax_wrapper := fk.tax_wrapper
    buy_date := lot.buy_date
    sell_date := sell_date
    holding_days := holding_days
    units_sold := consumed
    buy_price := lot.price_per_unit
    sell_price := sell_price
    buy_value := buy_value
    sell_value := sell_value
    gain_loss := gain_loss
    gain_loss_pct := if buy_value > 0 then gain_loss / buy_value * 100 else 0
    category := HoldingPeriodCategory.from_days holding_days
    confidence := 1 }

/-- The SELL loop of `_process_fund_transactions` (lines 132–171):
`while units_to_sell > 0.001 and lot_queue:` — pop exhausted front lots,
otherwise consume `min(remaining, units_to_sell)` from the front lot, emit a
result, and pop the lot if it is now exhausted.  When the front lot is
consumed without becoming exhausted the leftover is exactly `0`, so the loop
exits on its next condition check; the embedding returns there directly. -/
def sellLoop (fk : FundKey) (ticker : Option String) (sell_date : ℤ)
    (sell_price : ℚ) :
    ℚ → List Lot → List HoldingPeriodResult →
    ℚ × List Lot × List HoldingPeriodResult
  | units_to_sell, [], results => (units_to_sell, [], results)
  | units_to_sell, lot :: rest, results =>
    if units_to_sell ≤ tol then (units_to_sell, lot :: rest, results)
    else if lot.is_exhausted then
      sellLoop fk ticker sell_date sell_price units_to_sell rest results
    else
      let consumed := (lot.consume units_to_sell).1
      let lot' := (lot.consume units_to_sell).2
      let results' :=
        results ++ [mkSellResult fk ticker sell_date sell_price lot consumed]
      if lot'.is_exhausted then
        sellLoop fk ticker sell_date sell_price (units_to_sell - consumed)
          rest results'
      else (units_to_sell - consumed, lot' :: rest, results')

/-- Mutable state threaded through `_process_fund_transactions`:
the per-key lot queue plus the accumulated results and issues. -/
structure HPState where
  lot_queue : List Lot
  results : List HoldingPeriodResult
  issues : List Issue
  deriving Repr

/-- One iteration of the transaction loop of `_process_fund_transactions`
(lines 109–198): BUY appends a lot; SELL runs the FIFO loop, then, if more
than 0.001 units remain unmatched, records one issue and — when the last
emitted result carries this sell date — rebuilds it with confidence 0.7. -/
def processTx (fk : FundKey) (ticker : Option String) (st : HPState)
    (tx : Tx) : HPState :=
  match tx.transaction_type with
  | TxSide.BUY =>
    let lot : Lot :=
      { buy_date := tx.date
        units := tx.units
        price_per_unit := tx.price_per_unit
        remaining_units := tx.units
        fund_name := tx.fund_name
        platform := tx.platform
        tax_wrapper := tx.tax_wrapper
        transaction_id := some tx.id }
    { st with lot_queue := st.lot_queue ++ [lot] }
  | TxSide.SELL =>
    let out := sellLoop fk ticker tx.date tx.price_per_unit tx.units
      st.lot_queue st.results
    let leftover := out.1
    let queue' := out.2.1
    let results' := out.2.2
    if leftover > tol then
      let issues' := st.issues ++
        [{ fund_name := fk.fund_name
           platform := fk.platform
           tax_wrapper := fk.tax_wrapper
           sell_date := tx.date
           unmatched_units := leftover }]
      match results'.getLast? with
      | some last =>
        if last.sell_date = tx.date then
          { lot_queue := queue'
            results := results'.dropLast ++ [{ last with confidence := 7/10 }]
            issues := issues' }
        else { lot_queue := queue', results := results', issues := issues' }
      | none => { lot_queue := queue', results := results', issues := issues' }
    else { lot_queue := queue', results := results', issues := st.issues }

/-- `transactions[0].get("ticker") if transactions else None` — the ticker
attached to every result for a key. -/
def streamTicker (txs : List Tx) : Option String :=
  match txs with
  | [] => none
  | t :: _ => t.ticker

/-- `HoldingPeriodAnalyzer._process_fund_transactions`: fold the transaction
stream for one (fund, platform, wrapper) key over `processTx`, starting from
an empty queue.  The ticker is taken from the first transaction.  The Python
function returns `(results, issues)` and discards the queue; the embedding
keeps the final queue in the state so that properties about remaining lots
can be stated. -/
def processFundTransactions (fk : FundKey) (txs : List Tx) : HPState :=
  txs.foldl (processTx fk (streamTicker txs)) ⟨[], [], []⟩

/-- Sum of `remaining_units` over a lot queue. -/
def sumRem (q : List Lot) : ℚ := (q.map Lot.remaining_units).sum

/-- `True` iff the transaction is a BUY. -/
def Tx.isBuy (t : Tx) : Bool :=
  match t.transaction_type with
  | TxSide.BUY => true
  | TxSide.SELL => false

/-- Total BUY units in a transaction list. -/
def totalBuys (txs : List Tx) : ℚ :=
  ((txs.filter Tx.isBuy).map Tx.units).sum

/-- Total SELL units in a transaction list. -/
def totalSells (txs : List Tx) : ℚ :=
  ((txs.filter fun t => !t.isBuy).map Tx.units).sum

/-- `True` iff, replaying the stream from state `st`, no SELL demands more
units than the sum of `remaining_units` over the lots queued at that moment. -/
def sellsOkFrom (fk : FundKey) (ticker : Option String) (st : HPState) :
    List Tx → Bool
  | [] => true
  | tx :: rest =>
    (decide (tx.transaction_type = TxSide.BUY) ||
      decide (tx.units ≤ sumRem st.lot_queue)) &&
    sellsOkFrom fk ticker (processTx fk ticker st tx) rest

/-- `True` iff, replaying the full stream for key `fk` from an empty queue,
no SELL demands more units than the lots queued at that moment hold. -/
def sellsWithinAvailable (fk : FundKey) (txs : List Tx) : Bool :=
  sellsOkFrom fk (streamTicker txs) ⟨[], [], []⟩ txs

/-- Number of BUY transactions. -/
def nBuys (txs : List Tx) : ℕ := (txs.filter Tx.isBuy).length

/-- Number of SELL transactions. -/
def nSells (txs : List Tx) : ℕ := (txs.filter fun t => !t.isBuy).length

/-- Replay a transaction stream over `processTx` from an arbitrary state. -/
def runFrom (fk : FundKey) (ticker : Option String) (st : HPState)
    (txs : List Tx) : HPState :=
  txs.foldl (processTx fk ticker) st

section ConcreteInputs

/-- Concrete (fund, platform, wrapper) key used in witnesses and
counterexamples. -/
def fkC : FundKey := ⟨"FundA", "PlatformA", "ISA"⟩

/-- Concrete BUY row for witnesses and counterexamples. -/
def mkBuy (i : ℤ) (d : ℤ) (u : ℚ) (p : ℚ) : Tx :=
  { id := i, fund_name := "FundA", platform := "PlatformA", tax_wrapper := "ISA",
    date := d, transaction_type := TxSide.BUY, units := u, price_per_unit := p }

/-- Concrete SELL row for witnesses and counterexamples. -/
def mkSell (i : ℤ) (d : ℤ) (u : ℚ) (p : ℚ) : Tx :=
  { id := i, fund_name := "FundA", platform := "PlatformA", tax_wrapper := "ISA",
    date := d, transaction_type := TxSide.SELL, units := u, price_per_unit := p }

/-- C1 counterexample stream: three cycles of BUY 1 unit / SELL 0.9995 units.
Each SELL leaves a 0.0005-unit residue that the tolerance check discards, so
the discrepancy accumulates to 0.0015 > 0.001 although no SELL ever demanded
more than the queue held. -/
def c1txs : List Tx :=
  [mkBuy 1 0 1 1, mkSell 2 1 (1999/2000) 1,
   mkBuy 3 2 1 1, mkSell 4 3 (1999/2000) 1,
   mkBuy 5 4 1 1, mkSell 6 5 (1999/2000) 1]

/-- C1/C3 witness stream: BUY 100 @ 10, SELL 40 @ 12. -/
def cwtxs : List Tx := [mkBuy 1 0 100 10, mkSell 2 152 40 12]

/-- C2 counterexample stream: BUY 100, then two SELLs on the same date; the
second SELL finds the queue empty, yet the result emitted by the first SELL
is rewritten to confidence 0.7. -/
def c2txs : List Tx := [mkBuy 1 0 100 1, mkSell 2 10 100 1, mkSell 3 10 50 1]

/-- The single `HoldingPeriodResult` produced by the `cwtxs` stream. -/
def cwResult : HoldingPeriodResult :=
  { fund_name := "FundA", ticker := none, platform := "PlatformA",
    tax_wrapper := "ISA", buy_date := 0, sell_date := 152,
    holding_days := 152, units_sold := 40, buy_price := 10, sell_price := 12,
    buy_value := 400, sell_value := 480, gain_loss := 80, gain_loss_pct := 20,
    category := HoldingPeriodCategory.MEDIUM_TERM, confidence := 1 }

/-- A concrete open lot, used to witness the FIFO front-consumption parts. -/
def cwLot : Lot :=
  { buy_date := 0, units := 100, price_per_unit := 10, remaining_units := 100,
    fund_name := "FundA", platform := "PlatformA", tax_wrapper := "ISA",
    transaction_id := some 1 }

end ConcreteInputs

/-- `models.py`: `PriceImpactResult`. -/
structure PriceImpactResult where
  date : ℤ
  fund_name : String
  ticker : String
  transaction_type : TxSide
  execution_price : ℚ
  market_price : ℚ
  price_difference : ℚ
  price_difference_pct : ℚ
  value_impact : ℚ
  units : ℚ
  classification : PriceImpactClassification
  confidence : ℚ := 85/100
  deriving DecidableEq, Repr

/-- `models.py`: `CrossReferenceMatch`. -/
structure CrossReferenceMatch where
  fund_a : String
  fund_b : String
  platform_a : String
  platform_b : String
  wrapper_a : String
  wrapper_b : String
  match_type : String
  matched_identifier : Option String
  confidence : ℚ
  reason : String
  deriving DecidableEq, Repr

/-- `models.py`: the fields of `AnalysisResult` read by
`calculate_overall_confidence`.  The remaining report/metadata fields of the
dataclass (generated_at, summaries, counters, …) are never inspected by that
method and are omitted here. -/
structure AnalysisResult where
  holding_periods : List HoldingPeriodResult
  price_impacts : List PriceImpactResult
  verified_matches : List CrossReferenceMatch
  unsure_matches : List CrossReferenceMatch
  deriving Repr

/-- `models.py` `AnalysisResult.calculate_overall_confidence`: build the
`(confidence, weight)` list — holding-period mean at weight 0.4 when
results exist, the constant `(1.0, 0.2)` for trading frequency, price-impact
mean at 0.2 when results exist, cross-reference mean over
`verified + unsure` at 0.2 when matches exist — then return
`Σ c·w / Σ w` (or 0.0 for an empty list). -/
def calculateOverallConfidence (ar : AnalysisResult) : ℚ :=
  let confidences : List (ℚ × ℚ) :=
    (if ar.holding_periods ≠ [] then
      [((ar.holding_periods.map HoldingPeriodResult.confidence).sum /
          (ar.holding_periods.length : ℚ), 4/10)]
     else []) ++
    [((1 : ℚ), 2/10)] ++
    (if ar.price_impacts ≠ [] then
      [((ar.price_impacts.map PriceImpactResult.confidence).sum /
          (ar.price_impacts.length : ℚ), 2/10)]
     else []) ++
    (if ar.verified_matches ++ ar.unsure_matches ≠ [] then
      [((((ar.verified_matches ++ ar.unsure_matches).map
            CrossReferenceMatch.confidence).sum /
          (((ar.verified_matches ++ ar.unsure_matches).length : ℚ))), 2/10)]
     else [])
  if confidences = [] then 0
  else ((confidences.map fun cw => cw.1 * cw.2).sum) /
    ((confidences.map Prod.snd).sum)

/-- An `AnalysisResult` with all four confidence-bearing result sets empty. -/
def emptyAnalysisResult : AnalysisResult :=
  { holding_periods := [], price_impacts := [],
    verified_matches := [], unsure_matches := [] }

/-- Arithmetic mean of the confidences of a holding-period result set. -/
def meanConfHP (l : List HoldingPeriodResult) : ℚ :=
  (l.map HoldingPeriodResult.confidence).sum / (l.length : ℚ)

/-- Arithmetic mean of the confidences of a price-impact result set. -/
def meanConfPI (l : List PriceImpactResult) : ℚ :=
  (l.map PriceImpactResult.confidence).sum / (l.length : ℚ)

/-- Arithmetic mean of the confidences of a cross-reference match set. -/
def meanConfCR (l : List CrossReferenceMatch) : ℚ :=
  (l.map CrossReferenceMatch.confidence).sum / (l.length : ℚ)

/-- `price_impact.py` `NEUTRAL_TOLERANCE_PCT = 0.5`. -/
def NEUTRAL_TOLERANCE_PCT : ℚ := 5/10

/-- `ticker.endswith(LSE_PENCE_SUFFIX)` with `LSE_PENCE_SUFFIX = ".L"`
(`price_impact.py` line 25).  The Python guard `if ticker and …` only rules
out the empty string, which has no `.L` suffix anyway. -/
def endsWithDotL (s : String) : Bool :=
  match s.data.reverse with
  | 'L' :: '.' :: _ => true
  | _ => false

/-- `price_impact.py` `_normalize_market_price`: for `.L` tickers, when the
market/execution ratio lies strictly between 80 and 120 the market price is
divided by 100 (pence → pounds); `ratio` falls back to 0 when the execution
price is not positive. -/
def normalizeMarketPrice (ticker : String) (market_price : ℚ)
    (execution_price : ℚ) : ℚ :=
  if endsWithDotL ticker then
    let ratio := if execution_price > 0 then market_price / execution_price
      else 0
    if 80 < ratio ∧ ratio < 120 then market_price / 100 else market_price
  else market_price

/-- `price_impact.py` `PriceImpactAnalyzer._classify_impact`:
deviation % = `(execution − market)/market × 100`; within ±0.5 % neutral;
otherwise BUY below market / SELL above market favorable, else
unfavorable. -/
def classifyImpact (transaction_type : TxSide) (execution_price : ℚ)
    (market_price : ℚ) : PriceImpactClassification :=
  let diff_pct := (execution_price - market_price) / market_price * 100
  if |diff_pct| ≤ NEUTRAL_TOLERANCE_PCT then
    PriceImpactClassification.NEUTRAL
  else
    match transaction_type with
    | TxSide.BUY =>
      if execution_price < market_price then
        PriceImpactClassification.FAVORABLE
      else PriceImpactClassification.UNFAVORABLE
    | TxSide.SELL =>
      if execution_price > market_price then
        PriceImpactClassification.FAVORABLE
      else PriceImpactClassification.UNFAVORABLE

/-- One row of `_get_fund_identifiers` in `cross_reference.py`: a distinct
(fund, platform, wrapper) combination with its identifiers; `none` embeds SQL
NULL. -/
structure FundEntry where
  fund_name : String
  platform : String
  tax_wrapper : String
  tx_sedol : Option String
  ticker : Option String
  map_sedol : Option String
  isin : Option String
  deriving DecidableEq, Repr

/-- Python truthiness of an optional string column: `None` and `""` are
falsy, every other string truthy. -/
def strTruthy : Option String → Bool
  | none => false
  | some s => if s = "" then false else true

/-- The ticker key under which `_build_lookup_tables` files a fund. -/
def tickerKey (f : FundEntry) : String := f.ticker.getD ""

/-- First-occurrence de-duplication, the key order of a Python `defaultdict`
filled in insertion order (also the size of a `set(...)` built from the
list). -/
def dedupFirst {κ : Type} [DecidableEq κ] (l : List κ) : List κ :=
  l.foldl (fun acc k => if k ∈ acc then acc else acc ++ [k]) []

/-- Group a list by a key, keys in first-appearance order and every group in
encounter order — the semantics of filling a `defaultdict(list)` by one
left-to-right pass. -/
def groupByKey {α κ : Type} [DecidableEq κ] (l : List α) (key : α → κ) :
    List (κ × List α) :=
  (dedupFirst (l.map key)).map fun k => (k, l.filter fun x => decide (key x = k))

/-- `cross_reference.py` `_build_lookup_tables`, ticker table: funds with a
truthy ticker grouped by its value. -/
def buildTickerTable (funds : List FundEntry) : List (String × List FundEntry) :=
  groupByKey (funds.filter fun f => strTruthy f.ticker) tickerKey

/-- The SEDOL used for lookup: `fund["tx_sedol"] or fund["map_sedol"]`
(Python `or`: first truthy operand, else the second). -/
def entrySedol (f : FundEntry) : Option String :=
  if strTruthy f.tx_sedol then f.tx_sedol else f.map_sedol

/-- `_build_lookup_tables`, SEDOL table. -/
def buildSedolTable (funds : List FundEntry) : List (String × List FundEntry) :=
  groupByKey (funds.filter fun f => strTruthy (entrySedol f))
    (fun f => (entrySedol f).getD "")

/-- `_build_lookup_tables`, ISIN table. -/
def buildIsinTable (funds : List FundEntry) : List (String × List FundEntry) :=
  groupByKey (funds.filter fun f => strTruthy f.isin) (fun f => f.isin.getD "")

/-- `fund_a["platform"] == fund_b["platform"] and fund_a["tax_wrapper"] ==
fund_b["tax_wrapper"]` — the same-position skip shared by the three
identifier matchers. -/
def samePosition (a b : FundEntry) : Bool :=
  decide (a.platform = b.platform) && decide (a.tax_wrapper = b.tax_wrapper)

/-- `fund_a.get("isin") and fund_b.get("isin") and fund_a["isin"] ==
fund_b["isin"]`. -/
def hasIsinMatch (a b : FundEntry) : Bool :=
  strTruthy a.isin && strTruthy b.isin && decide (a.isin = b.isin)

/-- The body of the pair loop of `_find_ticker_matches` for one ordered pair:
`None` embeds the `continue` on same platform+wrapper. -/
def mkTickerMatch (ticker : String) (a b : FundEntry) :
    Option CrossReferenceMatch :=
  if samePosition a b then none
  else
    let has_isin := hasIsinMatch a b
    some
      { fund_a := a.fund_name, fund_b := b.fund_name,
        platform_a := a.platform, platform_b := b.platform,
        wrapper_a := a.tax_wrapper, wrapper_b := b.tax_wrapper,
        match_type := "ticker" ++ (if has_isin then "+isin" else ""),
        matched_identifier := some ticker,
        confidence := if has_isin then 1 else 95/100,
        reason := "Same ticker: " ++ ticker ++
          (if has_isin then " and ISIN: " ++ a.isin.getD "" else "") }

/-- `for i, fund_a in enumerate(funds): for fund_b in funds[i+1:]` collecting
the matches `f` emits. -/
def pairMatches (f : FundEntry → FundEntry → Option CrossReferenceMatch) :
    List FundEntry → List CrossReferenceMatch
  | [] => []
  | a :: rest => rest.filterMap (f a) ++ pairMatches f rest

/-- `cross_reference.py` `_find_ticker_matches`: for every ticker with at
least two entries, emit a match per ordered pair not sharing
platform+wrapper; confidence 1.0 with a coincident ISIN, else 0.95. -/
def findTickerMatches (table : List (String × List FundEntry)) :
    List CrossReferenceMatch :=
  table.flatMap fun tf =>
    if tf.2.length < 2 then [] else pairMatches (mkTickerMatch tf.1) tf.2

/-- `tuple(sorted([x, y]))` for two strings. -/
def sortPair (a b : String) : String × String :=
  if b < a then (b, a) else (a, b)

/-- Lexicographic order on string pairs, as Python compares 2-tuples. -/
def pairLt (x y : String × String) : Bool :=
  decide (x.1 < y.1) || (decide (x.1 = y.1) && decide (x.2 < y.2))

/-- `tuple(sorted([x, y]))` for two (name, wrapper) 2-tuples. -/
def sortPair2 (x y : String × String) : (String × String) × (String × String) :=
  if pairLt y x then (y, x) else (x, y)

/-- The inner pair loop of `_find_sedol_matches` / `_find_isin_matches` for a
fixed `fund_a`: skip same-position pairs, skip pairs already in
`existing_pairs`, otherwise emit and add the sorted name pair to the set. -/
def innerDedup (f : FundEntry → FundEntry → Option CrossReferenceMatch)
    (a : FundEntry) :
    List FundEntry → List (String × String) →
    List CrossReferenceMatch × List (String × String)
  | [], seen => ([], seen)
  | b :: bs, seen =>
    match f a b with
    | none => innerDedup f a bs seen
    | some m =>
      let pr := sortPair a.fund_name b.fund_name
      if pr ∈ seen then innerDedup f a bs seen
      else
        let rec_out := innerDedup f a bs (pr :: seen)
        (m :: rec_out.1, rec_out.2)

/-- The outer pair loop of the SEDOL/ISIN matchers, threading
`existing_pairs`. -/
def pairDedup (f : FundEntry → FundEntry → Option CrossReferenceMatch) :
    List FundEntry → List (String × String) →
    List CrossReferenceMatch × List (String × String)
  | [], seen => ([], seen)
  | a :: rest, seen =>
    let o1 := innerDedup f a rest seen
    let o2 := pairDedup f rest o1.2
    (o1.1 ++ o2.1, o2.2)

/-- The body of the pair loop of `_find_sedol_matches`. -/
def mkSedolMatch (sedol : String) (a b : FundEntry) :
    Option CrossReferenceMatch :=
  if samePosition a b then none
  else some
    { fund_a := a.fund_name, fund_b := b.fund_name,
      platform_a := a.platform, platform_b := b.platform,
      wrapper_a := a.tax_wrapper, wrapper_b := b.tax_wrapper,
      match_type := "sedol", matched_identifier := some sedol,
      confidence := 98/100, reason := "Same SEDOL: " ++ sedol }

/-- The body of the pair loop of `_find_isin_matches`. -/
def mkIsinMatch (isin : String) (a b : FundEntry) :
    Option CrossReferenceMatch :=
  if samePosition a b then none
  else some
    { fund_a := a.fund_name, fund_b := b.fund_name,
      platform_a := a.platform, platform_b := b.platform,
      wrapper_a := a.tax_wrapper, wrapper_b := b.tax_wrapper,
      match_type := "isin", matched_identifier := some isin,
      confidence := 92/100, reason := "Same ISIN: " ++ isin }

/-- `cross_reference.py` `_find_sedol_matches`. -/
def findSedolMatches (table : List (String × List FundEntry)) :
    List (String × String) →
    List CrossReferenceMatch × List (String × String) :=
  fun seen =>
    match table with
    | [] => ([], seen)
    | tf :: rest =>
      if tf.2.length < 2 then findSedolMatches rest seen
      else
        let o1 := pairDedup (mkSedolMatch tf.1) tf.2 seen
        let o2 := findSedolMatches rest o1.2
        (o1.1 ++ o2.1, o2.2)

/-- `cross_reference.py` `_find_isin_matches`. -/
def findIsinMatches (table : List (String × List FundEntry)) :
    List (String × String) →
    List CrossReferenceMatch × List (String × String) :=
  fun seen =>
    match table with
    | [] => ([], seen)
    | tf :: rest =>
      if tf.2.length < 2 then findIsinMatches rest seen
      else
        let o1 := pairDedup (mkIsinMatch tf.1) tf.2 seen
        let o2 := findIsinMatches rest o1.2
        (o1.1 ++ o2.1, o2.2)

/-- A seen-pair key of `_find_same_wrapper_holdings`:
`tuple(sorted([(name_a, wrapper_a), (name_b, wrapper_b)]))`. -/
def SWKey : Type := (String × String) × (String × String)

instance : DecidableEq SWKey := by
  unfold SWKey
  infer_instance

/-- Innermost loop of `_find_same_wrapper_holdings` for a fixed `fund_a` on
platform `p` of ticker `t`: emit a confidence-1.0
`same_platform_different_wrapper` match for every later fund in a different
wrapper, de-duplicated through `seen_pairs`. -/
def swInner (t p : String) (a : FundEntry) :
    List FundEntry → List SWKey →
    List CrossReferenceMatch × List SWKey
  | [], seen => ([], seen)
  | b :: bs, seen =>
    if a.tax_wrapper = b.tax_wrapper then swInner t p a bs seen
    else
      let pr : SWKey := sortPair2 (a.fund_name, a.tax_wrapper)
        (b.fund_name, b.tax_wrapper)
      if pr ∈ seen then swInner t p a bs seen
      else
        let m : CrossReferenceMatch :=
          { fund_a := a.fund_name, fund_b := b.fund_name,
            platform_a := p, platform_b := p,
            wrapper_a := a.tax_wrapper, wrapper_b := b.tax_wrapper,
            match_type := "same_platform_different_wrapper",
            matched_identifier := some t,
            confidence := 1,
            reason := "Same fund (" ++ t ++ ") held in " ++ a.tax_wrapper ++
              " and " ++ b.tax_wrapper ++ " on " ++ p }
        let rec_out := swInner t p a bs (pr :: seen)
        (m :: rec_out.1, rec_out.2)

/-- Pair loop of `_find_same_wrapper_holdings` over one platform group. -/
def swPairs (t p : String) :
    List FundEntry → List SWKey →
    List CrossReferenceMatch × List SWKey
  | [], seen => ([], seen)
  | a :: rest, seen =>
    let o1 := swInner t p a rest seen
    let o2 := swPairs t p rest o1.2
    (o1.1 ++ o2.1, o2.2)

/-- Platform loop of `_find_same_wrapper_holdings`: a platform group is only
scanned when it spans more than one distinct wrapper. -/
def swPlatforms (t : String) :
    List (String × List FundEntry) → List SWKey →
    List CrossReferenceMatch × List SWKey
  | [], seen => ([], seen)
  | pf :: rest, seen =>
    if (dedupFirst (pf.2.map FundEntry.tax_wrapper)).length > 1 then
      let o1 := swPairs t pf.1 pf.2 seen
      let o2 := swPlatforms t rest o1.2
      (o1.1 ++ o2.1, o2.2)
    else swPlatforms t rest seen

/-- Ticker loop of `_find_same_wrapper_holdings`. -/
def swTickers :
    List (String × List FundEntry) → List SWKey →
    List CrossReferenceMatch × List SWKey
  | [], seen => ([], seen)
  | tf :: rest, seen =>
    let o1 := swPlatforms tf.1 (groupByKey tf.2 FundEntry.platform) seen
    let o2 := swTickers rest o1.2
    (o1.1 ++ o2.1, o2.2)

/-- `cross_reference.py` `_find_same_wrapper_holdings`: group truthy-ticker
funds by ticker, then by platform, and emit a match for every pair of
distinct wrappers on the same platform. -/
def findSameWrapperHoldings (funds : List FundEntry) :
    List CrossReferenceMatch :=
  (swTickers (buildTickerTable funds) []).1

/-- Concrete entry: "Fund One" held on PlatformA in an ISA, with ticker and
ISIN. -/
def feA : FundEntry :=
  { fund_name := "Fund One", platform := "PlatformA", tax_wrapper := "ISA",
    tx_sedol := none, ticker := some "VWRL.L", map_sedol := none,
    isin := some "IE00B3RBWM25" }

/-- Concrete entry: the same fund and identifiers held in a SIPP. -/
def feB : FundEntry :=
  { fund_name := "Fund One", platform := "PlatformA", tax_wrapper := "SIPP",
    tx_sedol := none, ticker := some "VWRL.L", map_sedol := none,
    isin := some "IE00B3RBWM25" }

/-- Gregorian leap year, as `datetime` uses. -/
def isLeapYear (y : ℕ) : Bool :=
  y % 4 = 0 && (y % 100 ≠ 0 || y % 400 = 0)

/-- Days in a month of the proleptic Gregorian calendar. -/
def daysInMonth (y m : ℕ) : ℕ :=
  if m = 2 then (if isLeapYear y then 29 else 28)
  else if m = 4 ∨ m = 6 ∨ m = 9 ∨ m = 11 then 30
  else 31

/-- Days in the months before month `m` of year `y`. -/
def daysBeforeMonth (y m : ℕ) : ℕ :=
  (List.range (m - 1)).foldl (fun acc i => acc + daysInMonth y (i + 1)) 0

/-- Proleptic Gregorian ordinal of a date, as `datetime.toordinal`. -/
def toOrdinal (y m d : ℕ) : ℕ :=
  365 * (y - 1) + (y - 1) / 4 - (y - 1) / 100 + (y - 1) / 400 +
    daysBeforeMonth y m + d

/-- `s.split(sep)` on a character list: split at every occurrence of `c`,
keeping empty segments, as Python `str.split` with an explicit separator. -/
def splitOnChar (c : Char) : List Char → List (List Char)
  | [] => [[]]
  | x :: xs =>
    let r := splitOnChar c xs
    if x = c then [] :: r
    else
      match r with
      | [] => [[x]]
      | g :: gs => (x :: g) :: gs

/-- A decimal digit's value. -/
def charDigit (c : Char) : Option ℕ :=
  if decide ('0' ≤ c) && decide (c ≤ '9') then some (c.toNat - '0'.toNat)
  else none

/-- Parse a non-empty all-digit character list as a decimal number. -/
def digitsToNat : List Char → Option ℕ
  | [] => none
  | l =>
    l.foldl (fun acc c => acc.bind fun n => (charDigit c).map fun d =>
      n * 10 + d) (some 0)

/-- `datetime.strptime(s, "%Y-%m-%d")`, modelled as a total parser: three
dash-separated decimal fields (year up to 4 digits, month and day up to 2)
with a calendar-valid month and day, mapped to the date's ordinal; `none`
embeds the `ValueError` the Python call raises on any other input. -/
def parseDate (s : String) : Option ℕ :=
  match splitOnChar '-' s.data with
  | [ys, ms, ds] =>
    match digitsToNat ys, digitsToNat ms, digitsToNat ds with
    | some y, some m, some d =>
      if 1 ≤ y ∧ ys.length ≤ 4 ∧ ms.length ≤ 2 ∧ ds.length ≤ 2 ∧
          1 ≤ m ∧ m ≤ 12 ∧ 1 ≤ d ∧ d ≤ daysInMonth y m then
        some (toOrdinal y m d)
      else none
    | _, _, _ => none
  | _ => none

/-- A transaction row as consumed by
`PerformanceAnalyzer._calculate_mwr`: the date still a raw string (parsed
inside the method), the value a signed magnitude. -/
structure MwrTxn where
  date : String
  transaction_type : TxSide
  value : ℚ
  deriving DecidableEq, Repr

/-- The signed cash flow `_calculate_mwr` builds per transaction:
`-abs(value)` for a BUY (outflow), `abs(value)` otherwise (inflow). -/
def txnCashFlow (t : MwrTxn) : ℚ :=
  match t.transaction_type with
  | TxSide.BUY => -|t.value|
  | TxSide.SELL => |t.value|

/-- The cash-flow-building loop of `_calculate_mwr`: parse each transaction
date in order, pairing the signed cash flow with the date's ordinal; the
first unparsable date aborts the whole computation (the uncaught
`ValueError`). -/
def parseFlows : List MwrTxn → Option (List (ℚ × ℕ))
  | [] => some []
  | t :: rest =>
    match parseDate t.date with
    | none => none
    | some o =>
      match parseFlows rest with
      | none => none
      | some l => some ((txnCashFlow t, o) :: l)

/-- `performance.py` `PerformanceAnalyzer._calculate_mwr`.  The scipy root
finders `brentq` and `newton` are external to the repository, so their
outcomes are parameters: `Except.ok r` a root, `Except.error ()` the
ValueError/RuntimeError that the code catches.  The returned
`Except.error` embeds an exception escaping to the caller — which happens
exactly when `datetime.strptime` fails on a transaction date, since that
call (line 398) sits outside every try block.  All other paths return
`Except.ok`: the empty-transaction guard, the Brent attempt, the Newton
retry seeded at 0.1, and the final `None`. -/
def calcMwr (brentqOut newtonOut : Except Unit ℚ) (nowOrd : ℕ)
    (txns : List MwrTxn) (currentValue : ℚ) (currentDate : String) :
    Except String (Option ℚ) :=
  if txns.isEmpty then Except.ok none
  else
    match parseFlows txns with
    | none => Except.error "ValueError: time data does not match format"
    | some flows0 =>
      let endOrd := (parseDate currentDate).getD nowOrd
      let flows := flows0 ++ [(currentValue, endOrd)]
      if flows.length < 2 then Except.ok none
      else
        match brentqOut with
        | Except.ok irr => Except.ok (some (irr * 100))
        | Except.error _ =>
          match newtonOut with
          | Except.ok irr => Except.ok (some (irr * 100))
          | Except.error _ => Except.ok none

/-- Concrete transaction row for the C8 witness. -/
def mwrTxnW : MwrTxn :=
  { date := "2024-01-01", transaction_type := TxSide.BUY, value := 100 }

/-- Concrete malformed-date transaction row for the C8 counterexample. -/
def mwrTxnBad : MwrTxn :=
  { date := "not-a-date", transaction_type := TxSide.BUY, value := 100 }

theorem tol_pos : (0 : ℚ) < tol := by norm_num [tol]

theorem sumRem_nil : sumRem [] = 0 := rfl

theorem sumRem_cons (l : Lot) (q : List Lot) :
    sumRem (l :: q) = l.remaining_units + sumRem q := by
  simp [sumRem]

theorem sumRem_append (q r : List Lot) :
    sumRem (q ++ r) = sumRem q + sumRem r := by
  simp [sumRem]

theorem is_exhausted_iff (l : Lot) :
    l.is_exhausted = true ↔ l.remaining_units ≤ tol := by
  simp [Lot.is_exhausted]

/-- Bounds satisfied by one run of the SELL loop: the leftover is between 0
and the demand, the queue only shrinks, non-negative lot remainders are
preserved, the units removed from the queue exceed the units consumed by at
most `tol` per popped lot (residues of exhausted lots are discarded), and on
exit either at most `tol` units remain to sell or the queue is empty. -/
theorem sellLoop_bounds (fk : FundKey) (ticker : Option String) (d : ℤ)
    (p : ℚ) :
    ∀ (q : List Lot) (u : ℚ) (res : List HoldingPeriodResult),
      0 ≤ u → (∀ l ∈ q, 0 ≤ l.remaining_units) →
      0 ≤ (sellLoop fk ticker d p u q res).1 ∧
      (sellLoop fk ticker d p u q res).1 ≤ u ∧
      (sellLoop fk ticker d p u q res).2.1.length ≤ q.length ∧
      (∀ l ∈ (sellLoop fk ticker d p u q res).2.1, 0 ≤ l.remaining_units) ∧
      sumRem (sellLoop fk ticker d p u q res).2.1 ≤
        sumRem q - (u - (sellLoop fk ticker d p u q res).1) ∧
      sumRem q - (u - (sellLoop fk ticker d p u q res).1) ≤
        sumRem (sellLoop fk ticker d p u q res).2.1 +
          tol * ((q.length : ℚ) - ((sellLoop fk ticker d p u q res).2.1.length : ℚ)) ∧
      ((sellLoop fk ticker d p u q res).1 ≤ tol ∨
        (sellLoop fk ticker d p u q res).2.1 = []) := by
  intro q
  induction q with
  | nil =>
    intro u res hu _
    simp only [sellLoop, sumRem_nil]
    refine ⟨hu, le_refl u, by simp, by simp, by linarith, by simp, Or.inr trivial⟩
  | cons lot rest IH =>
    intro u res hu hq
    have hrem0 : 0 ≤ lot.remaining_units := hq lot (List.mem_cons_self _ _)
    have hrest : ∀ l ∈ rest, 0 ≤ l.remaining_units :=
      fun l hl => hq l (List.mem_cons_of_mem _ hl)
    by_cases h1 : u ≤ tol
    · simp only [sellLoop, if_pos h1]
      refine ⟨hu, le_refl u, le_refl _, hq, by linarith, ?_, Or.inl h1⟩
      simp
    · by_cases h2 : lot.is_exhausted
      · have hremtol : lot.remaining_units ≤ tol := (is_exhausted_iff lot).mp h2
        simp only [sellLoop, if_neg h1, if_pos h2]
        obtain ⟨i1, i2, i3, i4, i5, i6, i7⟩ := IH u res hu hrest
        refine ⟨i1, i2, ?_, i4, ?_, ?_, i7⟩
        · simpa using Nat.le_succ_of_le i3
        · rw [sumRem_cons]; linarith
        · rw [sumRem_cons]
          have hc : ((lot :: rest).length : ℚ) = (rest.length : ℚ) + 1 := by
            push_cast [List.length_cons]; ring
          rw [hc]; nlinarith [tol_pos]
      · have hremtol : ¬ lot.remaining_units ≤ tol :=
          fun h => h2 ((is_exhausted_iff lot).mpr h)
        have hcle : (lot.consume u).1 = min u lot.remaining_units := rfl
        have hc_le_u : (lot.consume u).1 ≤ u := by
          rw [hcle]; exact min_le_left _ _
        have hc_le_r : (lot.consume u).1 ≤ lot.remaining_units := by
          rw [hcle]; exact min_le_right _ _
        have hc_nonneg : 0 ≤ (lot.consume u).1 := by
          rw [hcle]; exact le_min hu hrem0
        have hlot2 : (lot.consume u).2.remaining_units =
            lot.remaining_units - (lot.consume u).1 := rfl
        by_cases h3 : (lot.consume u).2.is_exhausted
        · have hresid : lot.remaining_units - (lot.consume u).1 ≤ tol := by
            have := (is_exhausted_iff _).mp h3
            rwa [hlot2] at this
          simp only [sellLoop, if_neg h1, if_neg h2, if_pos h3]
          obtain ⟨i1, i2, i3, i4, i5, i6, i7⟩ :=
            IH (u - (lot.consume u).1)
              (res ++ [mkSellResult fk ticker d p lot (lot.consume u).1])
              (by linarith) hrest
          refine ⟨i1, by linarith, ?_, i4, ?_, ?_, i7⟩
          · simpa using Nat.le_succ_of_le i3
          · rw [sumRem_cons]; linarith
          · rw [sumRem_cons]
            have hc : ((lot :: rest).length : ℚ) = (rest.length : ℚ) + 1 := by
              push_cast [List.length_cons]; ring
            rw [hc]; nlinarith [tol_pos]
        · have hresid : ¬ lot.remaining_units - (lot.consume u).1 ≤ tol := by
            intro h
            exact h3 ((is_exhausted_iff _).mpr (by rwa [hlot2]))
          simp only [sellLoop, if_neg h1, if_neg h2, if_neg h3]
          have hcu : (lot.consume u).1 = u := by
            rcases le_or_lt u lot.remaining_units with hur | hur
            · rw [hcle]; exact min_eq_left hur
            · exfalso
              apply hresid
              rw [hcle, min_eq_right hur.le]
              simpa using tol_pos.le
          refine ⟨by linarith, by linarith, le_refl _, ?_, ?_, ?_, ?_⟩
          · intro l hl
            rcases List.mem_cons.mp hl with h | h
            · rw [h, hlot2]; linarith
            · exact hrest l h
          · rw [sumRem_cons, sumRem_cons, hlot2]; linarith
          · rw [sumRem_cons, sumRem_cons, hlot2]
            simp only [List.length_cons]
            have : ((rest.length + 1 : ℕ) : ℚ) - ((rest.length + 1 : ℕ) : ℚ) = 0 := by
              ring
            rw [this]; linarith
          · left; rw [hcu]; simpa using tol_pos.le

theorem runFrom_nil (fk : FundKey) (ticker : Option String) (st : HPState) :
    runFrom fk ticker st [] = st := rfl

theorem runFrom_cons (fk : FundKey) (ticker : Option String) (st : HPState)
    (tx : Tx) (rest : List Tx) :
    runFrom fk ticker st (tx :: rest) =
      runFrom fk ticker (processTx fk ticker st tx) rest := rfl

theorem processFundTransactions_eq_runFrom (fk : FundKey) (txs : List Tx) :
    processFundTransactions fk txs =
      runFrom fk (streamTicker txs) ⟨[], [], []⟩ txs := rfl

/-- On a BUY, `processTx` appends one fresh lot carrying the transaction's
units and leaves results and issues alone. -/
theorem processTx_buy (fk : FundKey) (ticker : Option String) (st : HPState)
    (tx : Tx) (h : tx.transaction_type = TxSide.BUY) :
    processTx fk ticker st tx =
      { st with lot_queue := st.lot_queue ++
          [{ buy_date := tx.date
             units := tx.units
             price_per_unit := tx.price_per_unit
             remaining_units := tx.units
             fund_name := tx.fund_name
             platform := tx.platform
             tax_wrapper := tx.tax_wrapper
             transaction_id := some tx.id }] } := by
  simp only [processTx, h]

/-- On a SELL, the queue left by `processTx` is the queue left by the FIFO
loop, whichever unmatched-units branch is taken. -/
theorem processTx_sell_queue (fk : FundKey) (ticker : Option String)
    (st : HPState) (tx : Tx) (h : tx.transaction_type = TxSide.SELL) :
    (processTx fk ticker st tx).lot_queue =
      (sellLoop fk ticker tx.date tx.price_per_unit tx.units
        st.lot_queue st.results).2.1 := by
  simp only [processTx, h]
  split
  · split
    · split <;> rfl
    · rfl
  · rfl

theorem nBuys_cons_buy (tx : Tx) (rest : List Tx) (h : tx.isBuy = true) :
    nBuys (tx :: rest) = nBuys rest + 1 := by
  simp [nBuys, List.filter, h]

theorem nBuys_cons_sell (tx : Tx) (rest : List Tx) (h : tx.isBuy = false) :
    nBuys (tx :: rest) = nBuys rest := by
  simp [nBuys, List.filter, h]

theorem nSells_cons_buy (tx : Tx) (rest : List Tx) (h : tx.isBuy = true) :
    nSells (tx :: rest) = nSells rest := by
  simp [nSells, List.filter, h]

theorem nSells_cons_sell (tx : Tx) (rest : List Tx) (h : tx.isBuy = false) :
    nSells (tx :: rest) = nSells rest + 1 := by
  simp [nSells, List.filter, h]

theorem totalBuys_cons_buy (tx : Tx) (rest : List Tx) (h : tx.isBuy = true) :
    totalBuys (tx :: rest) = tx.units + totalBuys rest := by
  simp [totalBuys, List.filter, h]

theorem totalBuys_cons_sell (tx : Tx) (rest : List Tx) (h : tx.isBuy = false) :
    totalBuys (tx :: rest) = totalBuys rest := by
  simp [totalBuys, List.filter, h]

theorem totalSells_cons_buy (tx : Tx) (rest : List Tx) (h : tx.isBuy = true) :
    totalSells (tx :: rest) = totalSells rest := by
  simp [totalSells, List.filter, h]

theorem totalSells_cons_sell (tx : Tx) (rest : List Tx) (h : tx.isBuy = false) :
    totalSells (tx :: rest) = tx.units + totalSells rest := by
  simp [totalSells, List.filter, h]

theorem isBuy_of_buy (tx : Tx) (h : tx.transaction_type = TxSide.BUY) :
    tx.isBuy = true := by
  simp [Tx.isBuy, h]

theorem isBuy_of_sell (tx : Tx) (h : tx.transaction_type = TxSide.SELL) :
    tx.isBuy = false := by
  simp [Tx.isBuy, h]

theorem nBuys_add_nSells (txs : List Tx) :
    nBuys txs + nSells txs = txs.length := by
  induction txs with
  | nil => rfl
  | cons tx rest ih =>
    cases h : tx.isBuy with
    | true =>
      rw [nBuys_cons_buy tx rest h, nSells_cons_buy tx rest h,
        List.length_cons]
      omega
    | false =>
      rw [nBuys_cons_sell tx rest h, nSells_cons_sell tx rest h,
        List.length_cons]
      omega

/-- Running the ledger from any state: lot remainders stay non-negative, the
queue grows by at most one lot per BUY, and — provided every SELL demands no
more than the queue then holds — the change in total remaining units tracks
`ΣBUY − ΣSELL` up to `tol` per SELL plus `tol` per lot removed from the
queue. -/
theorem run_bounds (fk : FundKey) (ticker : Option String) :
    ∀ (txs : List Tx) (st : HPState),
      (∀ tx ∈ txs, 0 ≤ tx.units) →
      (∀ l ∈ st.lot_queue, 0 ≤ l.remaining_units) →
      sellsOkFrom fk ticker st txs = true →
      (∀ l ∈ (runFrom fk ticker st txs).lot_queue, 0 ≤ l.remaining_units) ∧
      (runFrom fk ticker st txs).lot_queue.length ≤
        st.lot_queue.length + nBuys txs ∧
      -(tol * ((st.lot_queue.length : ℚ) + (nBuys txs : ℚ) -
          ((runFrom fk ticker st txs).lot_queue.length : ℚ))) ≤
        sumRem (runFrom fk ticker st txs).lot_queue -
          (sumRem st.lot_queue + totalBuys txs - totalSells txs) ∧
      sumRem (runFrom fk ticker st txs).lot_queue -
          (sumRem st.lot_queue + totalBuys txs - totalSells txs) ≤
        tol * (nSells txs : ℚ) +
          tol * ((st.lot_queue.length : ℚ) + (nBuys txs : ℚ) -
            ((runFrom fk ticker st txs).lot_queue.length : ℚ)) := by
  intro txs
  induction txs with
  | nil =>
    intro st _ hq _
    rw [runFrom_nil]
    refine ⟨hq, by simp [nBuys], ?_, ?_⟩ <;>
      simp [nBuys, nSells, totalBuys, totalSells]
  | cons tx rest IH =>
    intro st hunits hq hok
    have hunits_tx : 0 ≤ tx.units := hunits tx (List.mem_cons_self _ _)
    have hunits_rest : ∀ t ∈ rest, 0 ≤ t.units :=
      fun t ht => hunits t (List.mem_cons_of_mem _ ht)
    rw [sellsOkFrom, Bool.and_eq_true] at hok
    obtain ⟨hok1, hok2⟩ := hok
    rw [runFrom_cons]
    cases htype : tx.transaction_type with
    | BUY =>
      have hbuy := isBuy_of_buy tx htype
      have hst1 := processTx_buy fk ticker st tx htype
      set st1 := processTx fk ticker st tx with hst1def
      have hq1 : ∀ l ∈ st1.lot_queue, 0 ≤ l.remaining_units := by
        rw [hst1]
        intro l hl
        rcases List.mem_append.mp hl with h | h
        · exact hq l h
        · simp only [List.mem_singleton] at h
          rw [h]
          exact hunits_tx
      obtain ⟨i1, i2, i3, i4⟩ := IH st1 hunits_rest hq1 hok2
      have hlen1 : st1.lot_queue.length = st.lot_queue.length + 1 := by
        rw [hst1]; simp
      have hsum1 : sumRem st1.lot_queue = sumRem st.lot_queue + tx.units := by
        rw [hst1]; simp [sumRem_append, sumRem_cons, sumRem_nil]
      rw [nBuys_cons_buy tx rest hbuy, totalBuys_cons_buy tx rest hbuy,
        totalSells_cons_buy tx rest hbuy, nSells_cons_buy tx rest hbuy]
      refine ⟨i1, ?_, ?_, ?_⟩
      · omega
      · rw [hlen1, hsum1] at i3
        push_cast at i3 ⊢
        simp only [tol] at *
        linarith
      · rw [hlen1, hsum1] at i4
        push_cast at i4 ⊢
        simp only [tol] at *
        linarith
    | SELL =>
      have hsellb := isBuy_of_sell tx htype
      have hdemand : tx.units ≤ sumRem st.lot_queue := by
        rw [Bool.or_eq_true] at hok1
        rcases hok1 with h | h
        · exfalso
          rw [decide_eq_true_eq, htype] at h
          exact absurd h (by simp)
        · exact of_decide_eq_true h
      obtain ⟨s1, s2, s3, s4, s5, s6, s7⟩ :=
        sellLoop_bounds fk ticker tx.date tx.price_per_unit st.lot_queue
          tx.units st.results hunits_tx hq
      have hq1eq := processTx_sell_queue fk ticker st tx htype
      set st1 := processTx fk ticker st tx with hst1def
      set Lq := (sellLoop fk ticker tx.date tx.price_per_unit tx.units
        st.lot_queue st.results).2.1 with hLq
      set lv := (sellLoop fk ticker tx.date tx.price_per_unit tx.units
        st.lot_queue st.results).1 with hlv
      have hq1 : ∀ l ∈ st1.lot_queue, 0 ≤ l.remaining_units := by
        rw [hq1eq]; exact s4
      obtain ⟨i1, i2, i3, i4⟩ := IH st1 hunits_rest hq1 hok2
      have hAstep_up : sumRem Lq - (sumRem st.lot_queue - tx.units) ≤
          tol + tol * ((st.lot_queue.length : ℚ) - (Lq.length : ℚ)) := by
        have hlenq : (Lq.length : ℚ) ≤ (st.lot_queue.length : ℚ) := by
          exact_mod_cast s3
        rcases s7 with h | h
        · have : (0:ℚ) ≤ tol * ((st.lot_queue.length : ℚ) - (Lq.length : ℚ)) :=
            mul_nonneg tol_pos.le (by linarith)
          linarith
        · rw [h] at *
          simp only [sumRem_nil, List.length_nil, Nat.cast_zero] at *
          nlinarith [tol_pos]
      have hAstep_lo : -(tol * ((st.lot_queue.length : ℚ) - (Lq.length : ℚ))) ≤
          sumRem Lq - (sumRem st.lot_queue - tx.units) := by
        linarith
      rw [nBuys_cons_sell tx rest hsellb, totalBuys_cons_sell tx rest hsellb,
        totalSells_cons_sell tx rest hsellb, nSells_cons_sell tx rest hsellb]
      have hlen1 : st1.lot_queue.length = Lq.length := by rw [hq1eq]
      have hsum1 : sumRem st1.lot_queue = sumRem Lq := by rw [hq1eq]
      refine ⟨i1, ?_, ?_, ?_⟩
      · omega
      · rw [hlen1, hsum1] at i3
        have hlenq2 : (Lq.length : ℚ) ≤ (st.lot_queue.length : ℚ) := by
          exact_mod_cast s3
        simp only [tol] at *
        linarith
      · rw [hlen1, hsum1] at i4
        push_cast at i4 ⊢
        simp only [tol] at *
        linarith

/-- C1 counterexample: for the stream `c1txs` no SELL ever demands more units
than the lots then queued hold, yet after processing, the sum of remaining
units (0) differs from `ΣBUY − ΣSELL` (0.0015) by more than the claimed
0.001 tolerance: each of the three SELLs leaves a 0.0005-unit residue that
the exhaustion tolerance silently discards. -/
theorem unit_conservation_flat_tolerance_fails :
    sellsWithinAvailable fkC c1txs = true ∧
    ¬ |sumRem (processFundTransactions fkC c1txs).lot_queue -
        (totalBuys c1txs - totalSells c1txs)| ≤ 1/1000 := by
  constructor
  · norm_num [sellsWithinAvailable, sellsOkFrom, c1txs, mkBuy, mkSell,
      processTx, sellLoop, Lot.consume, Lot.is_exhausted, sumRem, tol, fkC,
      mkSellResult]
  · norm_num [processFundTransactions, c1txs, mkBuy, mkSell, processTx,
      sellLoop, Lot.consume, Lot.is_exhausted, sumRem, tol, fkC, mkSellResult,
      totalBuys, totalSells, Tx.isBuy, List.filter]
    rw [abs_of_pos (by norm_num)]
    norm_num

/-- C1 (amended): for every key and every stream of non-negative-unit
transactions in which no SELL demands more units than the lots then queued
hold, the sum of remaining units over the final queue equals
`ΣBUY − ΣSELL` within a tolerance of 0.001 units **per transaction**
(`tol * txs.length`), the flat 0.001 bound being unattainable because each
SELL may silently discard up to 0.001 units of residue. -/
theorem unit_conservation_per_tx_tolerance (fk : FundKey) (txs : List Tx)
    (hunits : ∀ tx ∈ txs, 0 ≤ tx.units)
    (hok : sellsWithinAvailable fk txs = true) :
    |sumRem (processFundTransactions fk txs).lot_queue -
      (totalBuys txs - totalSells txs)| ≤ tol * (txs.length : ℚ) := by
  rw [processFundTransactions_eq_runFrom]
  obtain ⟨_, hlen, hlo, hhi⟩ :=
    run_bounds fk (streamTicker txs) txs ⟨[], [], []⟩ hunits (by simp) hok
  have hnn := nBuys_add_nSells txs
  have hnnq : ((nBuys txs : ℚ) + (nSells txs : ℚ)) = (txs.length : ℚ) := by
    exact_mod_cast congrArg (Nat.cast : ℕ → ℚ) hnn
  have hL0 : (0:ℚ) ≤ ((runFrom fk (streamTicker txs)
      ⟨[], [], []⟩ txs).lot_queue.length : ℚ) := Nat.cast_nonneg _
  simp only [sumRem_nil, List.length_nil, Nat.cast_zero, HPState.lot_queue]
    at hlo hhi
  rw [abs_le]
  constructor
  · simp only [tol] at *
    nlinarith [Nat.cast_nonneg (α := ℚ) (nSells txs)]
  · simp only [tol] at *
    nlinarith [Nat.cast_nonneg (α := ℚ) (nSells txs)]

/-- Witness for the amended C1 theorem at the concrete stream `cwtxs`
(BUY 100 @ 10, SELL 40 @ 12). -/
theorem unit_conservation_per_tx_tolerance_witness :
    (∀ tx ∈ cwtxs, 0 ≤ tx.units) ∧
    sellsWithinAvailable fkC cwtxs = true ∧
    |sumRem (processFundTransactions fkC cwtxs).lot_queue -
      (totalBuys cwtxs - totalSells cwtxs)| ≤ tol * (cwtxs.length : ℚ) := by
  have h1 : ∀ tx ∈ cwtxs, 0 ≤ tx.units := by
    intro tx htx
    simp only [cwtxs, mkBuy, mkSell, List.mem_cons, List.mem_singleton,
      List.not_mem_nil, or_false] at htx
    rcases htx with h | h <;> rw [h] <;> norm_num
  have h2 : sellsWithinAvailable fkC cwtxs = true := by
    norm_num [sellsWithinAvailable, sellsOkFrom, cwtxs, mkBuy, mkSell,
      processTx, sellLoop, Lot.consume, Lot.is_exhausted, sumRem, tol, fkC,
      mkSellResult]
  exact ⟨h1, h2, unit_conservation_per_tx_tolerance fkC cwtxs h1 h2⟩

/-- The SELL loop only appends to the result list. -/
theorem sellLoop_results_extend (fk : FundKey) (ticker : Option String)
    (d : ℤ) (p : ℚ) :
    ∀ (q : List Lot) (u : ℚ) (res : List HoldingPeriodResult),
      ∃ t, (sellLoop fk ticker d p u q res).2.2 = res ++ t := by
  intro q
  induction q with
  | nil => intro u res; exact ⟨[], by simp [sellLoop]⟩
  | cons lot rest IH =>
    intro u res
    by_cases h1 : u ≤ tol
    · exact ⟨[], by simp [sellLoop, if_pos h1]⟩
    · by_cases h2 : lot.is_exhausted
      · simpa only [sellLoop, if_neg h1, if_pos h2] using IH u res
      · by_cases h3 : (lot.consume u).2.is_exhausted
        · simp only [sellLoop, if_neg h1, if_neg h2, if_pos h3]
          obtain ⟨t, ht⟩ := IH (u - (lot.consume u).1)
            (res ++ [mkSellResult fk ticker d p lot (lot.consume u).1])
          exact ⟨[mkSellResult fk ticker d p lot (lot.consume u).1] ++ t,
            by rw [ht, List.append_assoc]⟩
        · simp only [sellLoop, if_neg h1, if_neg h2, if_neg h3]
          exact ⟨[mkSellResult fk ticker d p lot (lot.consume u).1], rfl⟩

/-- Every result the SELL loop appends satisfies the per-consumption field
equations: it is dated at this sale, `holding_days = sell_date − buy_date`,
`gain_loss = units_sold·sell_price − units_sold·buy_price`, the category
comes from `from_days`, and the fresh confidence is 1. -/
theorem sellLoop_results_spec (fk : FundKey) (ticker : Option String)
    (d : ℤ) (p : ℚ) :
    ∀ (q : List Lot) (u : ℚ) (res : List HoldingPeriodResult),
      ∀ r ∈ (sellLoop fk ticker d p u q res).2.2,
        r ∈ res ∨
        (r.sell_date = d ∧ r.sell_price = p ∧
         r.holding_days = d - r.buy_date ∧
         r.gain_loss = r.units_sold * p - r.units_sold * r.buy_price ∧
         r.category = HoldingPeriodCategory.from_days r.holding_days ∧
         r.confidence = 1) := by
  intro q
  induction q with
  | nil =>
    intro u res r hr
    simp only [sellLoop] at hr
    exact Or.inl hr
  | cons lot rest IH =>
    intro u res r hr
    by_cases h1 : u ≤ tol
    · simp only [sellLoop, if_pos h1] at hr
      exact Or.inl hr
    · by_cases h2 : lot.is_exhausted
      · simp only [sellLoop, if_neg h1, if_pos h2] at hr
        exact IH u res r hr
      · have hmk : ∀ c : ℚ,
            (mkSellResult fk ticker d p lot c).sell_date = d ∧
            (mkSellResult fk ticker d p lot c).sell_price = p ∧
            (mkSellResult fk ticker d p lot c).holding_days =
              d - (mkSellResult fk ticker d p lot c).buy_date ∧
            (mkSellResult fk ticker d p lot c).gain_loss =
              (mkSellResult fk ticker d p lot c).units_sold * p -
                (mkSellResult fk ticker d p lot c).units_sold *
                  (mkSellResult fk ticker d p lot c).buy_price ∧
            (mkSellResult fk ticker d p lot c).category =
              HoldingPeriodCategory.from_days
                (mkSellResult fk ticker d p lot c).holding_days ∧
            (mkSellResult fk ticker d p lot c).confidence = 1 := by
          intro c
          refine ⟨rfl, rfl, rfl, ?_, rfl, rfl⟩
          simp [mkSellResult]
        by_cases h3 : (lot.consume u).2.is_exhausted
        · simp only [sellLoop, if_neg h1, if_neg h2, if_pos h3] at hr
          rcases IH (u - (lot.consume u).1)
            (res ++ [mkSellResult fk ticker d p lot (lot.consume u).1]) r hr
            with h | h
          · rcases List.mem_append.mp h with h | h
            · exact Or.inl h
            · simp only [List.mem_singleton] at h
              subst h
              exact Or.inr (hmk _)
          · exact Or.inr h
        · simp only [sellLoop, if_neg h1, if_neg h2, if_neg h3] at hr
          rcases List.mem_append.mp hr with h | h
          · exact Or.inl h
          · simp only [List.mem_singleton] at h
            subst h
            exact Or.inr (hmk _)

/-- The per-result field equations asserted by C3, as a predicate. -/
def ResultSpec (r : HoldingPeriodResult) : Prop :=
  r.holding_days = r.sell_date - r.buy_date ∧
  r.gain_loss = r.units_sold * r.sell_price - r.units_sold * r.buy_price ∧
  r.category = HoldingPeriodCategory.from_days r.holding_days

/-- `processTx` preserves the per-result field equations. -/
theorem processTx_results_spec (fk : FundKey) (ticker : Option String)
    (st : HPState) (tx : Tx)
    (h : ∀ r ∈ st.results, ResultSpec r) :
    ∀ r ∈ (processTx fk ticker st tx).results, ResultSpec r := by
  have hsell : ∀ r ∈ (sellLoop fk ticker tx.date tx.price_per_unit tx.units
      st.lot_queue st.results).2.2, ResultSpec r := by
    intro r hr
    rcases sellLoop_results_spec fk ticker tx.date tx.price_per_unit
      st.lot_queue tx.units st.results r hr with hmem | hspec
    · exact h r hmem
    · obtain ⟨e1, e2, e3, e4, e5, _⟩ := hspec
      exact ⟨by rw [e3, e1], by rw [e4, e2], e5⟩
  cases htype : tx.transaction_type with
  | BUY =>
    simp only [processTx, htype]
    exact h
  | SELL =>
    simp only [processTx, htype]
    split
    · split
      · rename_i last hlast
        split
        · intro r hr
          simp only at hr
          rcases List.mem_append.mp hr with hmem | hmem
          · exact hsell r (List.mem_of_mem_dropLast hmem)
          · simp only [List.mem_singleton] at hmem
            subst hmem
            have hlast_mem : last ∈ (sellLoop fk ticker tx.date
                tx.price_per_unit tx.units st.lot_queue st.results).2.2 := by
              obtain ⟨hne, heq⟩ := List.mem_getLast?_eq_getLast (x := last)
                (l := (sellLoop fk ticker tx.date tx.price_per_unit tx.units
                  st.lot_queue st.results).2.2) (by rw [hlast]; rfl)
              rw [heq]
              exact List.getLast_mem hne
            have hl := hsell last hlast_mem
            exact ⟨hl.1, hl.2.1, hl.2.2⟩
        · exact hsell
      · exact hsell
    · exact hsell

/-- The SELL loop touches only a front segment of the queue: the final queue
is a suffix of the input queue, possibly with the remaining units of its head
lot reduced; every lot behind the consumption point is untouched. -/
theorem sellLoop_queue_suffix (fk : FundKey) (ticker : Option String)
    (d : ℤ) (p : ℚ) :
    ∀ (q : List Lot) (u : ℚ) (res : List HoldingPeriodResult),
      ∃ k : ℕ,
        (sellLoop fk ticker d p u q res).2.1 = q.drop k ∨
        ∃ lot rest r2,
          q.drop k = lot :: rest ∧ 0 ≤ r2 ∧ r2 ≤ lot.remaining_units ∧
          (sellLoop fk ticker d p u q res).2.1 =
            { lot with remaining_units := r2 } :: rest := by
  intro q
  induction q with
  | nil =>
    intro u res
    exact ⟨0, Or.inl (by simp [sellLoop])⟩
  | cons lot rest IH =>
    intro u res
    by_cases h1 : u ≤ tol
    · exact ⟨0, Or.inl (by simp [sellLoop, if_pos h1])⟩
    · by_cases h2 : lot.is_exhausted
      · obtain ⟨k, hk⟩ := IH u res
        refine ⟨k + 1, ?_⟩
        simpa only [sellLoop, if_neg h1, if_pos h2, List.drop_succ_cons]
          using hk
      · have hu0 : (0:ℚ) < u := lt_of_lt_of_le tol_pos (not_le.mp h1).le
        have hr0 : (0:ℚ) < lot.remaining_units := by
          have := fun h => h2 ((is_exhausted_iff lot).mpr h)
          exact lt_of_lt_of_le tol_pos (not_le.mp (this)).le
        by_cases h3 : (lot.consume u).2.is_exhausted
        · obtain ⟨k, hk⟩ := IH (u - (lot.consume u).1)
            (res ++ [mkSellResult fk ticker d p lot (lot.consume u).1])
          refine ⟨k + 1, ?_⟩
          simpa only [sellLoop, if_neg h1, if_neg h2, if_pos h3,
            List.drop_succ_cons] using hk
        · refine ⟨0, Or.inr ⟨lot, rest,
            lot.remaining_units - (lot.consume u).1, rfl, ?_, ?_, ?_⟩⟩
          · have hc : (lot.consume u).1 = min u lot.remaining_units := rfl
            rw [hc]
            have h4 := min_le_right u lot.remaining_units
            linarith
          · have hc : (lot.consume u).1 = min u lot.remaining_units := rfl
            rw [hc]
            have h4 : 0 ≤ min u lot.remaining_units := le_min hu0.le hr0.le
            linarith
          · simp only [sellLoop, if_neg h1, if_neg h2, if_neg h3]
            rfl

/-- The first consumption of a SELL takes exactly
`min(units_to_sell, remaining_units)` units from the front lot of the queue
(the oldest unexhausted lot), emitting its result first. -/
theorem sellLoop_front_min (fk : FundKey) (ticker : Option String)
    (d : ℤ) (p : ℚ) (u : ℚ) (lot : Lot) (rest : List Lot)
    (res : List HoldingPeriodResult)
    (hu : ¬ u ≤ tol) (hl : ¬ lot.is_exhausted = true) :
    ∃ t, (sellLoop fk ticker d p u (lot :: rest) res).2.2 =
      res ++ [mkSellResult fk ticker d p lot (min u lot.remaining_units)] ++ t := by
  have hc : (lot.consume u).1 = min u lot.remaining_units := rfl
  by_cases h3 : (lot.consume u).2.is_exhausted
  · simp only [sellLoop, if_neg hu, if_neg hl, if_pos h3]
    obtain ⟨t, ht⟩ := sellLoop_results_extend fk ticker d p rest
      (u - (lot.consume u).1)
      (res ++ [mkSellResult fk ticker d p lot (lot.consume u).1])
    refine ⟨t, ?_⟩
    rw [ht]
    rfl
  · simp only [sellLoop, if_neg hu, if_neg hl, if_neg h3]
    exact ⟨[], by rw [hc]; simp⟩

/-- Replaying any stream preserves the per-result field equations. -/
theorem run_results_spec (fk : FundKey) (ticker : Option String) :
    ∀ (txs : List Tx) (st : HPState),
      (∀ r ∈ st.results, ResultSpec r) →
      ∀ r ∈ (runFrom fk ticker st txs).results, ResultSpec r := by
  intro txs
  induction txs with
  | nil => intro st h; simpa [runFrom_nil] using h
  | cons tx rest IH =>
    intro st h
    rw [runFrom_cons]
    exact IH (processTx fk ticker st tx) (processTx_results_spec fk ticker st tx h)

/-- C3: SELLs consume lots strictly from the front of the per-key queue —
the loop leaves a suffix of the queue with at most its head lot partially
reduced — the first consumption takes `min(remaining_units, units_to_sell)`
units from the front (oldest unexhausted) lot, and every result of a full
run satisfies `holding_days = sell_date − buy_date`,
`gain_loss = units_sold·sell_price − units_sold·buy_price` and
`category = from_days holding_days`. -/
theorem fifo_consumption :
    (∀ (fk : FundKey) (txs : List Tx),
       ∀ r ∈ (processFundTransactions fk txs).results, ResultSpec r) ∧
    (∀ (fk : FundKey) (ticker : Option String) (d : ℤ) (p : ℚ)
       (q : List Lot) (u : ℚ) (res : List HoldingPeriodResult),
       ∃ k : ℕ,
         (sellLoop fk ticker d p u q res).2.1 = q.drop k ∨
         ∃ lot rest r2,
           q.drop k = lot :: rest ∧ 0 ≤ r2 ∧ r2 ≤ lot.remaining_units ∧
           (sellLoop fk ticker d p u q res).2.1 =
             { lot with remaining_units := r2 } :: rest) ∧
    (∀ (fk : FundKey) (ticker : Option String) (d : ℤ) (p : ℚ) (u : ℚ)
       (lot : Lot) (rest : List Lot) (res : List HoldingPeriodResult),
       ¬ u ≤ tol → ¬ lot.is_exhausted = true →
       ∃ t, (sellLoop fk ticker d p u (lot :: rest) res).2.2 =
         res ++ [mkSellResult fk ticker d p lot (min u lot.remaining_units)]
           ++ t) := by
  refine ⟨?_, ?_, ?_⟩
  · intro fk txs
    rw [processFundTransactions_eq_runFrom]
    exact run_results_spec fk (streamTicker txs) txs ⟨[], [], []⟩ (by simp)
  · exact sellLoop_queue_suffix
  · intro fk ticker d p u lot rest res hu hl
    exact sellLoop_front_min fk ticker d p u lot rest res hu hl

/-- Witness for C3 at the concrete stream `cwtxs` (BUY 100 @ 10 on day 0,
SELL 40 @ 12 on day 152) and the concrete lot `cwLot`. -/
theorem fifo_consumption_witness :
    (cwResult ∈ (processFundTransactions fkC cwtxs).results ∧
      ResultSpec cwResult) ∧
    (∃ k : ℕ,
       (sellLoop fkC none 152 12 40 [cwLot] []).2.1 = [cwLot].drop k ∨
       ∃ lot rest r2,
         [cwLot].drop k = lot :: rest ∧ 0 ≤ r2 ∧ r2 ≤ lot.remaining_units ∧
         (sellLoop fkC none 152 12 40 [cwLot] []).2.1 =
           { lot with remaining_units := r2 } :: rest) ∧
    (¬ (40:ℚ) ≤ tol ∧ ¬ cwLot.is_exhausted = true ∧
     ∃ t, (sellLoop fkC none 152 12 40 (cwLot :: []) []).2.2 =
       [] ++ [mkSellResult fkC none 152 12 cwLot (min 40 cwLot.remaining_units)]
         ++ t) := by
  have hmem : cwResult ∈ (processFundTransactions fkC cwtxs).results := by
    norm_num [processFundTransactions, cwtxs, mkBuy, mkSell, processTx,
      sellLoop, Lot.consume, Lot.is_exhausted, sumRem, tol, fkC, mkSellResult,
      streamTicker, cwResult, HoldingPeriodCategory.from_days]
  have h40 : ¬ (40:ℚ) ≤ tol := by norm_num [tol]
  have hlot : ¬ cwLot.is_exhausted = true := by
    norm_num [cwLot, Lot.is_exhausted, tol]
  exact ⟨⟨hmem, fifo_consumption.1 fkC cwtxs cwResult hmem⟩,
    fifo_consumption.2.1 fkC none 152 12 [cwLot] 40 [],
    h40, hlot, fifo_consumption.2.2 fkC none 152 12 40 cwLot [] [] h40 hlot⟩

theorem sumRem_nonneg (q : List Lot) (h : ∀ l ∈ q, 0 ≤ l.remaining_units) :
    0 ≤ sumRem q := by
  induction q with
  | nil => simp [sumRem_nil]
  | cons lot rest IH =>
    rw [sumRem_cons]
    have h1 := h lot (List.mem_cons_self _ _)
    have h2 := IH fun l hl => h l (List.mem_cons_of_mem _ hl)
    linarith

/-- C2 counterexample: in the stream `c2txs` (BUY 100, SELL 100 on day 10,
SELL 50 on day 10) the second SELL finds the queue already empty and emits no
result — the result count stays at 1 — yet the result emitted by the *first*
SELL, which was fully matched with confidence 1, is rewritten to confidence
0.7, because the guard only compares the last result's sell date with the
current sell date. -/
theorem empty_queue_sell_modifies_prior_result :
    (processFundTransactions fkC (c2txs.take 2)).results.map
        HoldingPeriodResult.confidence = [1] ∧
    (processFundTransactions fkC (c2txs.take 2)).lot_queue = [] ∧
    (processFundTransactions fkC c2txs).results.map
        HoldingPeriodResult.confidence = [7/10] ∧
    (processFundTransactions fkC c2txs).results.length = 1 ∧
    (processFundTransactions fkC c2txs).issues =
      [{ fund_name := "FundA", platform := "PlatformA", tax_wrapper := "ISA",
         sell_date := 10, unmatched_units := 50 }] := by
  refine ⟨?_, ?_, ?_, ?_, ?_⟩ <;>
    norm_num [processFundTransactions, c2txs, mkBuy, mkSell, processTx,
      sellLoop, Lot.consume, Lot.is_exhausted, sumRem, tol, fkC, mkSellResult,
      streamTicker]

/-- C2 (amended): a SELL whose demand exceeds the available units by more
than 0.001 leaves more than 0.001 units unmatched and then appends exactly
one issue naming the fund, platform, wrapper, sell date and unmatched count;
if the last result in the *accumulated* list carries this sell date — whether
it was emitted by this SELL or by an earlier SELL dated the same day — that
result is replaced by an otherwise identical result with confidence 0.7,
and otherwise (in particular when no result at all has been emitted) no
result is modified. -/
theorem processTx_sell_spec (fk : FundKey) (ticker : Option String)
    (st : HPState) (tx : Tx) (leftover : ℚ) (queue2 : List Lot)
    (results2 : List HoldingPeriodResult)
    (htype : tx.transaction_type = TxSide.SELL)
    (hout : sellLoop fk ticker tx.date tx.price_per_unit tx.units
      st.lot_queue st.results = (leftover, queue2, results2)) :
    ((∀ l ∈ st.lot_queue, 0 ≤ l.remaining_units) →
      sumRem st.lot_queue + tol < tx.units → tol < leftover) ∧
    (tol < leftover →
      (processTx fk ticker st tx).issues = st.issues ++
        [{ fund_name := fk.fund_name, platform := fk.platform,
           tax_wrapper := fk.tax_wrapper, sell_date := tx.date,
           unmatched_units := leftover }] ∧
      (∀ last, results2.getLast? = some last → last.sell_date = tx.date →
        (processTx fk ticker st tx).results =
          results2.dropLast ++ [{ last with confidence := 7/10 }]) ∧
      (∀ last, results2.getLast? = some last → ¬ last.sell_date = tx.date →
        (processTx fk ticker st tx).results = results2) ∧
      (results2.getLast? = none →
        (processTx fk ticker st tx).results = results2)) ∧
    (leftover ≤ tol →
      (processTx fk ticker st tx).issues = st.issues ∧
      (processTx fk ticker st tx).results = results2) := by
  refine ⟨?_, ?_, ?_⟩
  · intro hq hdem
    have hsq : 0 ≤ sumRem st.lot_queue := sumRem_nonneg _ hq
    have hu0 : 0 ≤ tx.units := by
      have := tol_pos
      linarith
    have sb := sellLoop_bounds fk ticker tx.date tx.price_per_unit
      st.lot_queue tx.units st.results hu0 hq
    rw [hout] at sb
    obtain ⟨_, _, _, s4, s5, _, _⟩ := sb
    have hq2 : 0 ≤ sumRem queue2 := sumRem_nonneg _ s4
    simp only at s5
    linarith
  · intro hlf
    simp only [processTx, htype, hout]
    rw [if_pos hlf]
    refine ⟨?_, ?_, ?_, ?_⟩
    · split <;> (try split) <;> rfl
    · intro last hl hdate
      simp [hl, hdate]
    · intro last hl hdate
      simp [hl, hdate]
    · intro hl
      simp [hl]
  · intro hlf
    have : ¬ leftover > tol := not_lt.mpr hlf
    simp only [processTx, htype, hout]
    rw [if_neg this]
    exact ⟨rfl, rfl⟩

/-- Witness for the amended C2 theorem: a SELL of 2 units against an empty
queue records one issue for 2 unmatched units and modifies no result. -/
theorem processTx_sell_spec_witness :
    (processTx fkC none ⟨[], [], []⟩ (mkSell 7 5 2 1)).issues =
      [{ fund_name := "FundA", platform := "PlatformA", tax_wrapper := "ISA",
         sell_date := 5, unmatched_units := 2 }] ∧
    (processTx fkC none ⟨[], [], []⟩ (mkSell 7 5 2 1)).results = [] := by
  have h := processTx_sell_spec fkC none ⟨[], [], []⟩ (mkSell 7 5 2 1)
    2 [] [] rfl rfl
  have hlf : tol < (2:ℚ) := by norm_num [tol]
  obtain ⟨hiss, _, _, hnone⟩ := h.2.1 hlf
  constructor
  · rw [hiss]
    norm_num [mkSell, fkC]
  · exact hnone rfl

/-- C9: `from_days` boundary values: 29 → very short, 30 and 89 → short,
90 and 364 → medium, 365 → long. -/
theorem from_days_boundaries :
    HoldingPeriodCategory.from_days 29 = HoldingPeriodCategory.VERY_SHORT_TERM ∧
    HoldingPeriodCategory.from_days 30 = HoldingPeriodCategory.SHORT_TERM ∧
    HoldingPeriodCategory.from_days 89 = HoldingPeriodCategory.SHORT_TERM ∧
    HoldingPeriodCategory.from_days 90 = HoldingPeriodCategory.MEDIUM_TERM ∧
    HoldingPeriodCategory.from_days 364 = HoldingPeriodCategory.MEDIUM_TERM ∧
    HoldingPeriodCategory.from_days 365 = HoldingPeriodCategory.LONG_TERM := by
  refine ⟨?_, ?_, ?_, ?_, ?_, ?_⟩ <;> rfl

/-- C4: `calculate_overall_confidence` is the weighted average of the
per-component mean confidences at fixed weights — holding-period 0.4,
trading-frequency 0.2 with contribution constantly 1.0, price-impact 0.2,
cross-reference 0.2 — components with empty result sets being skipped and
the surviving weights renormalised by their total. -/
theorem overall_confidence_weighted_average (ar : AnalysisResult) :
    calculateOverallConfidence ar =
      ((if ar.holding_periods ≠ [] then
          meanConfHP ar.holding_periods * (4/10) else 0) +
        1 * (2/10) +
        (if ar.price_impacts ≠ [] then
          meanConfPI ar.price_impacts * (2/10) else 0) +
        (if ar.verified_matches ++ ar.unsure_matches ≠ [] then
          meanConfCR (ar.verified_matches ++ ar.unsure_matches) * (2/10)
         else 0)) /
      ((if ar.holding_periods ≠ [] then (4/10 : ℚ) else 0) + 2/10 +
        (if ar.price_impacts ≠ [] then (2/10 : ℚ) else 0) +
        (if ar.verified_matches ++ ar.unsure_matches ≠ [] then (2/10 : ℚ)
         else 0)) := by
  by_cases h1 : ar.holding_periods = [] <;>
    by_cases h2 : ar.price_impacts = [] <;>
      by_cases h3 : ar.verified_matches ++ ar.unsure_matches = [] <;>
        simp [calculateOverallConfidence, meanConfHP, meanConfPI, meanConfCR,
          h1, h2, h3] <;>
          ring_nf

/-- C10: when the holding-period, price-impact and cross-reference result
sets are all empty, the confidence list still holds the unconditional
trading-frequency entry `(1.0, 0.2)`, so the method returns 1.0 — the
`return 0.0` branch for an empty list is unreachable. -/
theorem empty_components_confidence_is_one (ar : AnalysisResult)
    (h1 : ar.holding_periods = []) (h2 : ar.price_impacts = [])
    (h3 : ar.verified_matches = []) (h4 : ar.unsure_matches = []) :
    calculateOverallConfidence ar = 1 := by
  simp [calculateOverallConfidence, h1, h2, h3, h4]

/-- Witness for C10 at the concrete empty `AnalysisResult`. -/
theorem empty_components_confidence_is_one_witness :
    calculateOverallConfidence emptyAnalysisResult = 1 :=
  empty_components_confidence_is_one emptyAnalysisResult rfl rfl rfl rfl

/-- C5 counterexample: for ticker "VUSA.L" with execution price 1 and market
price 80 the ratio `market/execution` is exactly 80, the endpoint the claim
includes in the divide-by-100 interval, yet `_normalize_market_price` (which
tests `80 < ratio < 120`, both strict) returns the market price unchanged
instead of 80/100. -/
theorem lse_normalization_closed_interval_fails :
    (80:ℚ) / 1 = 80 ∧
    normalizeMarketPrice "VUSA.L" 80 1 = 80 ∧
    (80:ℚ) ≠ 80 / 100 := by
  refine ⟨by norm_num, ?_, by norm_num⟩
  norm_num [normalizeMarketPrice, endsWithDotL]

/-- C5 (amended): for tickers ending in ".L" with positive execution and
market prices, the market price is divided by 100 exactly when the ratio
`market/execution` lies in the **open** interval (80, 120) — the endpoints
80 and 120 are excluded — and it is returned unchanged otherwise and for
every ticker without the ".L" suffix. -/
theorem lse_pence_normalization :
    (∀ (ticker : String) (mp ep : ℚ),
       endsWithDotL ticker = true → 0 < ep → 0 < mp →
       (normalizeMarketPrice ticker mp ep = mp / 100 ↔
         80 < mp / ep ∧ mp / ep < 120)) ∧
    (∀ (ticker : String) (mp ep : ℚ),
       endsWithDotL ticker = true → 0 < ep →
       ¬ (80 < mp / ep ∧ mp / ep < 120) →
       normalizeMarketPrice ticker mp ep = mp) ∧
    (∀ (ticker : String) (mp ep : ℚ), endsWithDotL ticker = false →
       normalizeMarketPrice ticker mp ep = mp) := by
  refine ⟨?_, ?_, ?_⟩
  · intro ticker mp ep ht hep hmp
    simp only [normalizeMarketPrice, ht, if_true, if_pos hep]
    by_cases hcond : 80 < mp / ep ∧ mp / ep < 120
    · rw [if_pos hcond]
      simp [hcond]
    · rw [if_neg hcond]
      simp only [hcond, iff_false]
      intro heq
      linarith
  · intro ticker mp ep ht hep hcond
    simp only [normalizeMarketPrice, ht, if_true, if_pos hep]
    rw [if_neg hcond]
  · intro ticker mp ep ht
    simp [normalizeMarketPrice, ht]

/-- Witness for the amended C5 theorem: "VUSA.L" at market 900 / execution
10 (ratio 90, inside the open interval) and the suffix-free "VUSA". -/
theorem lse_pence_normalization_witness :
    (normalizeMarketPrice "VUSA.L" 900 10 = 900 / 100 ↔
      80 < (900:ℚ) / 10 ∧ (900:ℚ) / 10 < 120) ∧
    normalizeMarketPrice "VUSA.L" 2000 10 = 2000 ∧
    normalizeMarketPrice "VUSA" 900 10 = 900 := by
  refine ⟨lse_pence_normalization.1 "VUSA.L" 900 10 (by decide)
      (by norm_num) (by norm_num),
    lse_pence_normalization.2.1 "VUSA.L" 2000 10 (by decide) (by norm_num)
      (by norm_num),
    lse_pence_normalization.2.2 "VUSA" 900 10 (by decide)⟩

/-- C6: with positive (normalised) market price, a transaction is neutral
exactly when the percentage deviation is within ±0.5, favorable exactly when
outside that band with (BUY below market) or (SELL above market), and
unfavorable in every remaining case; in particular a BUY at market is
neutral, a BUY 1 % below market is favorable and a SELL 1 % below market is
unfavorable. -/
theorem price_impact_classification (ty : TxSide) (ep mp : ℚ)
    (hmp : 0 < mp) :
    (classifyImpact ty ep mp = PriceImpactClassification.NEUTRAL ↔
      |(ep - mp) / mp * 100| ≤ 1/2) ∧
    (classifyImpact ty ep mp = PriceImpactClassification.FAVORABLE ↔
      ¬ |(ep - mp) / mp * 100| ≤ 1/2 ∧
      ((ty = TxSide.BUY ∧ ep < mp) ∨ (ty = TxSide.SELL ∧ mp < ep))) ∧
    (classifyImpact ty ep mp = PriceImpactClassification.UNFAVORABLE ↔
      ¬ |(ep - mp) / mp * 100| ≤ 1/2 ∧
      ¬ ((ty = TxSide.BUY ∧ ep < mp) ∨ (ty = TxSide.SELL ∧ mp < ep))) ∧
    classifyImpact TxSide.BUY mp mp = PriceImpactClassification.NEUTRAL ∧
    classifyImpact TxSide.BUY (mp * (99/100)) mp =
      PriceImpactClassification.FAVORABLE ∧
    classifyImpact TxSide.SELL (mp * (99/100)) mp =
      PriceImpactClassification.UNFAVORABLE := by
  have htolpct : NEUTRAL_TOLERANCE_PCT = 1/2 := by
    norm_num [NEUTRAL_TOLERANCE_PCT]
  have hchar : ∀ (t : TxSide) (e : ℚ),
      (classifyImpact t e mp = PriceImpactClassification.NEUTRAL ↔
        |(e - mp) / mp * 100| ≤ 1/2) ∧
      (classifyImpact t e mp = PriceImpactClassification.FAVORABLE ↔
        ¬ |(e - mp) / mp * 100| ≤ 1/2 ∧
        ((t = TxSide.BUY ∧ e < mp) ∨ (t = TxSide.SELL ∧ mp < e))) ∧
      (classifyImpact t e mp = PriceImpactClassification.UNFAVORABLE ↔
        ¬ |(e - mp) / mp * 100| ≤ 1/2 ∧
        ¬ ((t = TxSide.BUY ∧ e < mp) ∨ (t = TxSide.SELL ∧ mp < e))) := by
    intro t e
    simp only [classifyImpact, htolpct]
    by_cases htol : |(e - mp) / mp * 100| ≤ 1/2
    · rw [if_pos htol]
      have htol' : |(e - mp) / mp * 100| ≤ 2⁻¹ := by rwa [one_div] at htol
      cases t <;> simp [htol']
    · rw [if_neg htol]
      have htol' : 2⁻¹ < |(e - mp) / mp * 100| := by
        rw [← one_div]
        exact not_le.mp htol
      have htoln : ¬ |(e - mp) / mp * 100| ≤ 2⁻¹ := not_le.mpr htol'
      cases t
      · by_cases hlt : e < mp
        · rw [if_pos hlt]
          simp [htoln, htol', hlt]
        · rw [if_neg hlt]
          simp [htoln, htol', hlt]
      · by_cases hgt : mp < e
        · have hlt : ¬ e < mp := by linarith
          rw [if_pos hgt]
          simp [htoln, htol', hgt, hlt]
        · rw [if_neg hgt]
          simp [htoln, htol', hgt]
  have hd0 : |(mp - mp) / mp * 100| ≤ (1:ℚ)/2 := by
    simp
  have hd1 : (mp * (99/100) - mp) / mp * 100 = -1 := by
    field_simp
    ring
  have hd1' : ¬ |(mp * (99/100) - mp) / mp * 100| ≤ (1:ℚ)/2 := by
    rw [hd1]
    norm_num
  have hblt : mp * (99/100) < mp := by linarith
  refine ⟨(hchar ty ep).1, (hchar ty ep).2.1, (hchar ty ep).2.2, ?_, ?_, ?_⟩
  · exact (hchar TxSide.BUY mp).1.mpr hd0
  · exact (hchar TxSide.BUY (mp * (99/100))).2.1.mpr
      ⟨hd1', Or.inl ⟨rfl, hblt⟩⟩
  · exact (hchar TxSide.SELL (mp * (99/100))).2.2.mpr
      ⟨hd1', by
        rintro (⟨h, _⟩ | ⟨_, h⟩)
        · exact absurd h (by simp)
        · linarith⟩

/-- Witness for C6 at market price 200 and execution price 199. -/
theorem price_impact_classification_witness :
    (0:ℚ) < 200 ∧
    (classifyImpact TxSide.BUY 199 200 = PriceImpactClassification.FAVORABLE ↔
      ¬ |((199:ℚ) - 200) / 200 * 100| ≤ 1/2 ∧
      ((TxSide.BUY = TxSide.BUY ∧ (199:ℚ) < 200) ∨
        (TxSide.BUY = TxSide.SELL ∧ (200:ℚ) < 199))) := by
  exact ⟨by norm_num,
    (price_impact_classification TxSide.BUY 199 200 (by norm_num)).2.1⟩

theorem mem_dedupFirst {κ : Type} [DecidableEq κ] (l : List κ) (k : κ) :
    k ∈ dedupFirst l ↔ k ∈ l := by
  have hgen : ∀ (l : List κ) (acc : List κ),
      (k ∈ l.foldl (fun acc k => if k ∈ acc then acc else acc ++ [k]) acc ↔
        k ∈ acc ∨ k ∈ l) := by
    intro l
    induction l with
    | nil => intro acc; simp
    | cons x xs IH =>
      intro acc
      rw [List.foldl_cons, IH]
      by_cases hx : x ∈ acc
      · rw [if_pos hx]
        constructor
        · rintro (h | h)
          · exact Or.inl h
          · exact Or.inr (List.mem_cons_of_mem _ h)
        · rintro (h | h)
          · exact Or.inl h
          · rcases List.mem_cons.mp h with h | h
            · exact Or.inl (h ▸ hx)
            · exact Or.inr h
      · rw [if_neg hx]
        simp only [List.mem_append, List.mem_singleton, List.mem_cons]
        tauto
  rw [dedupFirst, hgen]
  simp

theorem pairMatches_mem_of_shape
    (f : FundEntry → FundEntry → Option CrossReferenceMatch)
    (a b : FundEntry) (m : CrossReferenceMatch) (h : f a b = some m) :
    ∀ (l1 l2 l3 : List FundEntry),
      m ∈ pairMatches f (l1 ++ a :: (l2 ++ b :: l3)) := by
  intro l1
  induction l1 with
  | nil =>
    intro l2 l3
    rw [List.nil_append, pairMatches]
    apply List.mem_append_left
    exact List.mem_filterMap.mpr ⟨b, by simp, h⟩
  | cons x xs IH =>
    intro l2 l3
    rw [List.cons_append, pairMatches]
    exact List.mem_append_right _ (IH l2 l3)

theorem pairMatches_sound
    (f : FundEntry → FundEntry → Option CrossReferenceMatch) :
    ∀ (l : List FundEntry) (m : CrossReferenceMatch),
      m ∈ pairMatches f l → ∃ x y, f x y = some m := by
  intro l
  induction l with
  | nil => intro m hm; simp [pairMatches] at hm
  | cons a rest IH =>
    intro m hm
    rw [pairMatches] at hm
    rcases List.mem_append.mp hm with h | h
    · obtain ⟨b, _, hb⟩ := List.mem_filterMap.mp h
      exact ⟨a, b, hb⟩
    · exact IH m h

theorem innerDedup_sound
    (f : FundEntry → FundEntry → Option CrossReferenceMatch)
    (a : FundEntry) :
    ∀ (bs : List FundEntry) (seen : List (String × String))
      (m : CrossReferenceMatch),
      m ∈ (innerDedup f a bs seen).1 → ∃ y, f a y = some m := by
  intro bs
  induction bs with
  | nil => intro seen m hm; simp [innerDedup] at hm
  | cons b rest IH =>
    intro seen m hm
    rw [innerDedup] at hm
    rcases hf : f a b with _ | m'
    · rw [hf] at hm
      exact IH seen m hm
    · rw [hf] at hm
      simp only at hm
      by_cases hpr : sortPair a.fund_name b.fund_name ∈ seen
      · rw [if_pos hpr] at hm
        exact IH seen m hm
      · rw [if_neg hpr] at hm
        rcases List.mem_cons.mp hm with h | h
        · exact ⟨b, h ▸ hf⟩
        · exact IH _ m h

theorem pairDedup_sound
    (f : FundEntry → FundEntry → Option CrossReferenceMatch) :
    ∀ (l : List FundEntry) (seen : List (String × String))
      (m : CrossReferenceMatch),
      m ∈ (pairDedup f l seen).1 → ∃ x y, f x y = some m := by
  intro l
  induction l with
  | nil => intro seen m hm; simp [pairDedup] at hm
  | cons a rest IH =>
    intro seen m hm
    rw [pairDedup] at hm
    simp only at hm
    rcases List.mem_append.mp hm with h | h
    · obtain ⟨y, hy⟩ := innerDedup_sound f a rest seen m h
      exact ⟨a, y, hy⟩
    · exact IH _ m h

theorem findSedolMatches_sound :
    ∀ (table : List (String × List FundEntry))
      (seen : List (String × String)) (m : CrossReferenceMatch),
      m ∈ (findSedolMatches table seen).1 →
      ∃ s x y, mkSedolMatch s x y = some m := by
  intro table
  induction table with
  | nil => intro seen m hm; simp [findSedolMatches] at hm
  | cons tf rest IH =>
    intro seen m hm
    rw [findSedolMatches] at hm
    by_cases hlen : tf.2.length < 2
    · rw [if_pos hlen] at hm
      exact IH seen m hm
    · rw [if_neg hlen] at hm
      simp only at hm
      rcases List.mem_append.mp hm with h | h
      · obtain ⟨x, y, hxy⟩ := pairDedup_sound (mkSedolMatch tf.1) tf.2 seen m h
        exact ⟨tf.1, x, y, hxy⟩
      · exact IH _ m h

theorem findIsinMatches_sound :
    ∀ (table : List (String × List FundEntry))
      (seen : List (String × String)) (m : CrossReferenceMatch),
      m ∈ (findIsinMatches table seen).1 →
      ∃ s x y, mkIsinMatch s x y = some m := by
  intro table
  induction table with
  | nil => intro seen m hm; simp [findIsinMatches] at hm
  | cons tf rest IH =>
    intro seen m hm
    rw [findIsinMatches] at hm
    by_cases hlen : tf.2.length < 2
    · rw [if_pos hlen] at hm
      exact IH seen m hm
    · rw [if_neg hlen] at hm
      simp only at hm
      rcases List.mem_append.mp hm with h | h
      · obtain ⟨x, y, hxy⟩ := pairDedup_sound (mkIsinMatch tf.1) tf.2 seen m h
        exact ⟨tf.1, x, y, hxy⟩
      · exact IH _ m h

theorem mkTickerMatch_not_same_position (t : String) (a b : FundEntry)
    (m : CrossReferenceMatch) (h : mkTickerMatch t a b = some m) :
    ¬ (m.platform_a = m.platform_b ∧ m.wrapper_a = m.wrapper_b) := by
  rw [mkTickerMatch] at h
  by_cases hsp : samePosition a b = true
  · rw [if_pos hsp] at h
    exact absurd h (by simp)
  · rw [if_neg hsp] at h
    simp only [Option.some.injEq] at h
    subst h
    simp only [samePosition, Bool.and_eq_true, decide_eq_true_eq] at hsp
    exact hsp

theorem mkSedolMatch_not_same_position (s : String) (a b : FundEntry)
    (m : CrossReferenceMatch) (h : mkSedolMatch s a b = some m) :
    ¬ (m.platform_a = m.platform_b ∧ m.wrapper_a = m.wrapper_b) := by
  rw [mkSedolMatch] at h
  by_cases hsp : samePosition a b = true
  · rw [if_pos hsp] at h
    exact absurd h (by simp)
  · rw [if_neg hsp] at h
    simp only [Option.some.injEq] at h
    subst h
    simp only [samePosition, Bool.and_eq_true, decide_eq_true_eq] at hsp
    exact hsp

theorem mkIsinMatch_not_same_position (s : String) (a b : FundEntry)
    (m : CrossReferenceMatch) (h : mkIsinMatch s a b = some m) :
    ¬ (m.platform_a = m.platform_b ∧ m.wrapper_a = m.wrapper_b) := by
  rw [mkIsinMatch] at h
  by_cases hsp : samePosition a b = true
  · rw [if_pos hsp] at h
    exact absurd h (by simp)
  · rw [if_neg hsp] at h
    simp only [Option.some.injEq] at h
    subst h
    simp only [samePosition, Bool.and_eq_true, decide_eq_true_eq] at hsp
    exact hsp

theorem swInner_wrappers_differ (t p : String) (a : FundEntry) :
    ∀ (bs : List FundEntry) (seen : List SWKey) (m : CrossReferenceMatch),
      m ∈ (swInner t p a bs seen).1 → ¬ m.wrapper_a = m.wrapper_b := by
  intro bs
  induction bs with
  | nil => intro seen m hm; simp [swInner] at hm
  | cons b rest IH =>
    intro seen m hm
    rw [swInner] at hm
    by_cases hw : a.tax_wrapper = b.tax_wrapper
    · rw [if_pos hw] at hm
      exact IH seen m hm
    · rw [if_neg hw] at hm
      by_cases hpr : sortPair2 (a.fund_name, a.tax_wrapper)
          (b.fund_name, b.tax_wrapper) ∈ seen
      · rw [if_pos hpr] at hm
        exact IH seen m hm
      · rw [if_neg hpr] at hm
        rcases List.mem_cons.mp hm with h | h
        · subst h
          exact hw
        · exact IH _ m h

theorem swPairs_wrappers_differ (t p : String) :
    ∀ (l : List FundEntry) (seen : List SWKey) (m : CrossReferenceMatch),
      m ∈ (swPairs t p l seen).1 → ¬ m.wrapper_a = m.wrapper_b := by
  intro l
  induction l with
  | nil => intro seen m hm; simp [swPairs] at hm
  | cons a rest IH =>
    intro seen m hm
    rw [swPairs] at hm
    simp only at hm
    rcases List.mem_append.mp hm with h | h
    · exact swInner_wrappers_differ t p a rest seen m h
    · exact IH _ m h

theorem swPlatforms_wrappers_differ (t : String) :
    ∀ (groups : List (String × List FundEntry)) (seen : List SWKey)
      (m : CrossReferenceMatch),
      m ∈ (swPlatforms t groups seen).1 → ¬ m.wrapper_a = m.wrapper_b := by
  intro groups
  induction groups with
  | nil => intro seen m hm; simp [swPlatforms] at hm
  | cons pf rest IH =>
    intro seen m hm
    rw [swPlatforms] at hm
    by_cases hspan : (dedupFirst (pf.2.map FundEntry.tax_wrapper)).length > 1
    · rw [if_pos hspan] at hm
      simp only at hm
      rcases List.mem_append.mp hm with h | h
      · exact swPairs_wrappers_differ t pf.1 pf.2 seen m h
      · exact IH _ m h
    · rw [if_neg hspan] at hm
      exact IH seen m hm

theorem swTickers_wrappers_differ :
    ∀ (table : List (String × List FundEntry)) (seen : List SWKey)
      (m : CrossReferenceMatch),
      m ∈ (swTickers table seen).1 → ¬ m.wrapper_a = m.wrapper_b := by
  intro table
  induction table with
  | nil => intro seen m hm; simp [swTickers] at hm
  | cons tf rest IH =>
    intro seen m hm
    rw [swTickers] at hm
    simp only at hm
    rcases List.mem_append.mp hm with h | h
    · exact swPlatforms_wrappers_differ tf.1 _ seen m h
    · exact IH _ m h

theorem findTickerMatches_sound (table : List (String × List FundEntry))
    (m : CrossReferenceMatch) (hm : m ∈ findTickerMatches table) :
    ∃ t x y, mkTickerMatch t x y = some m := by
  rw [findTickerMatches] at hm
  obtain ⟨tf, _, hmem⟩ := List.mem_flatMap.mp hm
  by_cases hlen : tf.2.length < 2
  · rw [if_pos hlen] at hmem
    simp at hmem
  · rw [if_neg hlen] at hmem
    obtain ⟨x, y, hxy⟩ := pairMatches_sound (mkTickerMatch tf.1) tf.2 m hmem
    exact ⟨tf.1, x, y, hxy⟩

/-- C7: two entries listed for the same ticker that also share a (truthy)
ISIN and do not sit on the same platform+wrapper yield a ticker match with
confidence exactly 1.00 and match_type "ticker+isin"; and no finder — ticker,
SEDOL, ISIN or same-platform-different-wrapper — ever emits a match whose two
sides have both the same platform and the same wrapper. -/
theorem cross_reference_matching :
    (∀ (funds l1 l2 l3 : List FundEntry) (a b : FundEntry) (t i : String),
       funds = l1 ++ a :: (l2 ++ b :: l3) →
       a.ticker = some t → b.ticker = some t → t ≠ "" →
       a.isin = some i → b.isin = some i → i ≠ "" →
       ¬ (a.platform = b.platform ∧ a.tax_wrapper = b.tax_wrapper) →
       ∃ m ∈ findTickerMatches (buildTickerTable funds),
         m.fund_a = a.fund_name ∧ m.fund_b = b.fund_name ∧
         m.platform_a = a.platform ∧ m.platform_b = b.platform ∧
         m.wrapper_a = a.tax_wrapper ∧ m.wrapper_b = b.tax_wrapper ∧
         m.confidence = 1 ∧ m.match_type = "ticker+isin") ∧
    (∀ (table : List (String × List FundEntry)) (m : CrossReferenceMatch),
       m ∈ findTickerMatches table →
       ¬ (m.platform_a = m.platform_b ∧ m.wrapper_a = m.wrapper_b)) ∧
    (∀ (table : List (String × List FundEntry))
       (seen : List (String × String)) (m : CrossReferenceMatch),
       m ∈ (findSedolMatches table seen).1 →
       ¬ (m.platform_a = m.platform_b ∧ m.wrapper_a = m.wrapper_b)) ∧
    (∀ (table : List (String × List FundEntry))
       (seen : List (String × String)) (m : CrossReferenceMatch),
       m ∈ (findIsinMatches table seen).1 →
       ¬ (m.platform_a = m.platform_b ∧ m.wrapper_a = m.wrapper_b)) ∧
    (∀ (funds : List FundEntry) (m : CrossReferenceMatch),
       m ∈ findSameWrapperHoldings funds →
       ¬ (m.platform_a = m.platform_b ∧ m.wrapper_a = m.wrapper_b)) := by
  refine ⟨?_, ?_, ?_, ?_, ?_⟩
  · intro funds l1 l2 l3 a b t i hfunds hta htb htne hia hib hine hpos
    have hpa : strTruthy a.ticker = true := by
      rw [hta]; simp [strTruthy, htne]
    have hpb : strTruthy b.ticker = true := by
      rw [htb]; simp [strTruthy, htne]
    have hka : tickerKey a = t := by simp [tickerKey, hta]
    have hkb : tickerKey b = t := by simp [tickerKey, htb]
    have hshape :
        ((funds.filter fun f => strTruthy f.ticker).filter
          fun x => decide (tickerKey x = t)) =
        ((l1.filter fun f => strTruthy f.ticker).filter
            fun x => decide (tickerKey x = t)) ++ a ::
          (((l2.filter fun f => strTruthy f.ticker).filter
              fun x => decide (tickerKey x = t)) ++ b ::
            ((l3.filter fun f => strTruthy f.ticker).filter
              fun x => decide (tickerKey x = t))) := by
      rw [hfunds]
      simp [List.filter_append, List.filter_cons, hpa, hpb, hka, hkb]
    have hmem_t : t ∈ dedupFirst
        ((funds.filter fun f => strTruthy f.ticker).map tickerKey) := by
      rw [mem_dedupFirst]
      refine List.mem_map.mpr ⟨a, ?_, hka⟩
      rw [hfunds]
      simp [List.filter_append, List.filter_cons, hpa]
    have htab : (t, (funds.filter fun f => strTruthy f.ticker).filter
        fun x => decide (tickerKey x = t)) ∈ buildTickerTable funds := by
      rw [buildTickerTable, groupByKey]
      exact List.mem_map.mpr ⟨t, hmem_t, rfl⟩
    have hsp : ¬ samePosition a b = true := by
      simp only [samePosition, Bool.and_eq_true, decide_eq_true_eq]
      exact hpos
    have hisin : hasIsinMatch a b = true := by
      simp [hasIsinMatch, hia, hib, strTruthy, hine]
    have hmk : mkTickerMatch t a b = some
        { fund_a := a.fund_name, fund_b := b.fund_name,
          platform_a := a.platform, platform_b := b.platform,
          wrapper_a := a.tax_wrapper, wrapper_b := b.tax_wrapper,
          match_type := "ticker" ++ "+isin",
          matched_identifier := some t,
          confidence := 1,
          reason := "Same ticker: " ++ t ++
            (" and ISIN: " ++ a.isin.getD "") } := by
      rw [mkTickerMatch, if_neg hsp]
      simp [hisin]
    have hlen : ¬ ((funds.filter fun f => strTruthy f.ticker).filter
        fun x => decide (tickerKey x = t)).length < 2 := by
      rw [hshape]
      simp
      omega
    apply Exists.intro (CrossReferenceMatch.mk a.fund_name b.fund_name
      a.platform b.platform a.tax_wrapper b.tax_wrapper
      ("ticker" ++ "+isin") (some t) 1
      ("Same ticker: " ++ t ++ (" and ISIN: " ++ a.isin.getD "")))
    refine ⟨?_, rfl, rfl, rfl, rfl, rfl, rfl, rfl,
      (by decide : "ticker" ++ "+isin" = "ticker+isin")⟩
    rw [findTickerMatches]
    refine List.mem_flatMap.mpr ⟨_, htab, ?_⟩
    simp only
    rw [if_neg hlen, hshape]
    exact pairMatches_mem_of_shape (mkTickerMatch t) a b _ hmk _ _ _
  · intro table m hm
    obtain ⟨t, x, y, hxy⟩ := findTickerMatches_sound table m hm
    exact mkTickerMatch_not_same_position t x y m hxy
  · intro table seen m hm
    obtain ⟨s, x, y, hxy⟩ := findSedolMatches_sound table seen m hm
    exact mkSedolMatch_not_same_position s x y m hxy
  · intro table seen m hm
    obtain ⟨s, x, y, hxy⟩ := findIsinMatches_sound table seen m hm
    exact mkIsinMatch_not_same_position s x y m hxy
  · intro funds m hm
    rw [findSameWrapperHoldings] at hm
    intro hc
    exact swTickers_wrappers_differ (buildTickerTable funds) [] m hm hc.2

/-- Witness for C7: "Fund One" with ticker "VWRL.L" and a shared ISIN held in
an ISA and a SIPP on the same platform produces a confidence-1.00
"ticker+isin" match. -/
theorem cross_reference_matching_witness :
    ∃ m ∈ findTickerMatches (buildTickerTable [feA, feB]),
      m.fund_a = feA.fund_name ∧ m.fund_b = feB.fund_name ∧
      m.platform_a = feA.platform ∧ m.platform_b = feB.platform ∧
      m.wrapper_a = feA.tax_wrapper ∧ m.wrapper_b = feB.tax_wrapper ∧
      m.confidence = 1 ∧ m.match_type = "ticker+isin" :=
  cross_reference_matching.1 [feA, feB] [] [] [] feA feB
    "VWRL.L" "IE00B3RBWM25" rfl rfl rfl (by decide) rfl rfl (by decide)
    (by intro h; exact absurd h.2 (by decide))

theorem parseFlows_some :
    ∀ (txns : List MwrTxn),
      (∀ t ∈ txns, (parseDate t.date).isSome = true) →
      ∃ l, parseFlows txns = some l ∧ l.length = txns.length := by
  intro txns
  induction txns with
  | nil => intro _; exact ⟨[], rfl, rfl⟩
  | cons t rest IH =>
    intro h
    obtain ⟨o, ho⟩ := Option.isSome_iff_exists.mp
      (h t (List.mem_cons_self _ _))
    obtain ⟨l, hl, hlen⟩ := IH fun x hx => h x (List.mem_cons_of_mem _ hx)
    refine ⟨(txnCashFlow t, o) :: l, ?_, by simp [hlen]⟩
    rw [parseFlows, ho, hl]

/-- C8 counterexample: with a transaction whose date string is not
`%Y-%m-%d`, `_calculate_mwr` raises `ValueError` to its caller — the
`datetime.strptime` on line 398 sits outside every try block — even when
both root finders would fail benignly, contradicting "never raises ... for
every input transaction list". -/
theorem calc_mwr_raises_on_malformed_date :
    calcMwr (Except.error ()) (Except.error ()) 0 [mwrTxnBad] 500
      "2024-06-01" =
      Except.error "ValueError: time data does not match format" := rfl

/-- C8 (amended): provided every transaction date parses as `%Y-%m-%d`,
`_calculate_mwr` never raises, for every solver behaviour, current value and
current date: an empty list returns None, a Brent root `r` returns `r·100`,
a Brent failure followed by a Newton root `r` returns `r·100`, and failure of
both solvers returns None.  (With a malformed transaction date the parse
error propagates to the caller instead.) -/
theorem calc_mwr_never_raises (brentqOut newtonOut : Except Unit ℚ)
    (nowOrd : ℕ) (txns : List MwrTxn) (cv : ℚ) (cd : String)
    (hdates : ∀ t ∈ txns, (parseDate t.date).isSome = true) :
    (txns = [] →
      calcMwr brentqOut newtonOut nowOrd txns cv cd = Except.ok none) ∧
    (txns ≠ [] → ∀ r, brentqOut = Except.ok r →
      calcMwr brentqOut newtonOut nowOrd txns cv cd =
        Except.ok (some (r * 100))) ∧
    (txns ≠ [] → ∀ r, brentqOut = Except.error () →
      newtonOut = Except.ok r →
      calcMwr brentqOut newtonOut nowOrd txns cv cd =
        Except.ok (some (r * 100))) ∧
    (txns ≠ [] → brentqOut = Except.error () →
      newtonOut = Except.error () →
      calcMwr brentqOut newtonOut nowOrd txns cv cd = Except.ok none) := by
  obtain ⟨l, hl, hlen⟩ := parseFlows_some txns hdates
  refine ⟨?_, ?_, ?_, ?_⟩
  · intro he
    simp [calcMwr, he]
  · intro hne r hb
    have hnil : ¬ txns.isEmpty = true := by
      simpa using hne
    have hpos1 : 1 ≤ l.length := by
      rw [hlen]
      exact List.length_pos.mpr hne
    simp [calcMwr, hnil, hl, hpos1, hb]
  · intro hne r hb hn
    have hnil : ¬ txns.isEmpty = true := by
      simpa using hne
    have hpos1 : 1 ≤ l.length := by
      rw [hlen]
      exact List.length_pos.mpr hne
    simp [calcMwr, hnil, hl, hpos1, hb, hn]
  · intro hne hb hn
    have hnil : ¬ txns.isEmpty = true := by
      simpa using hne
    have hpos1 : 1 ≤ l.length := by
      rw [hlen]
      exact List.length_pos.mpr hne
    simp [calcMwr, hnil, hl, hpos1, hb, hn]

/-- Witness for the amended C8 theorem: a single well-dated BUY with Brent
failing and Newton finding 0.1, returning 10 %. -/
theorem calc_mwr_never_raises_witness :
    (∀ t ∈ [mwrTxnW], (parseDate t.date).isSome = true) ∧
    calcMwr (Except.error ()) (Except.ok (1/10)) 0 [mwrTxnW] 110
      "2024-06-30" = Except.ok (some ((1/10) * 100)) := by
  have hd : ∀ t ∈ [mwrTxnW], (parseDate t.date).isSome = true := by
    intro t ht
    simp only [List.mem_singleton] at ht
    subst ht
    decide
  exact ⟨hd,
    (calc_mwr_never_raises (Except.error ()) (Except.ok (1/10)) 0 [mwrTxnW]
      110 "2024-06-30" hd).2.2.1 (by simp) (1/10) rfl rfl⟩

end Portfolio
